import Mathlib

/-!
Verification of the ContractShield policy decision pipeline (Python package
`contractshield`) against its natural-language specification.

The Python sources are embedded shallowly:

* pure dataclasses become Lean structures with the same field names
  (snake_case turned into camelCase where Lean prefers it);
* Python `Optional[T]` becomes `Option T`; Python machine integers are
  unbounded, so `Nat`/`Int` model them directly;
* dictionaries appearing as JSON-like values become an inductive `Value`
  tree; Python floats are modelled as rationals (IEEE rounding, `inf` and
  `nan` spellings and exponent literals are outside every verified claim
  and are noted where they are abstracted);
* raised exceptions become `Except` error values;
* the body bytes of an HTTP request are modelled as the UTF-8 text they
  decode to (every byte-level fact used below is stated via
  `String.utf8ByteSize`).

Sources embedded: `core/result.py`, `core/contract.py`, `cel/evaluator.py`,
`openapi/loader.py`, `fastapi/middleware.py`.
-/

namespace ContractShield

/-! ## Core data model (`core/result.py`) -/

/-- Severity levels for rule hits (`Severity` in `core/result.py`). -/
inductive Severity where
  | low
  | med
  | high
  | critical
deriving DecidableEq, Repr

/-- Risk level classification (`RiskLevel` in `core/result.py`). -/
inductive RiskLevel where
  | none
  | low
  | med
  | high
  | critical
deriving DecidableEq, Repr

/-- Decision action types (`Action` in `core/result.py`). -/
inductive Action where
  | ALLOW
  | BLOCK
  | MONITOR
  | CHALLENGE
deriving DecidableEq, Repr

/-- A triggered rule (`RuleHit` in `core/result.py`). -/
structure RuleHit where
  id : String
  severity : Severity
  message : Option String := Option.none
  path : Option String := Option.none
  value : Option String := Option.none
deriving DecidableEq, Repr

/-- Risk assessment (`RiskScore` in `core/result.py`). -/
structure RiskScore where
  score : Nat
  level : RiskLevel
  factors : List String := []
deriving DecidableEq, Repr

/-- The per-severity weights of `RiskScore.from_rule_hits`
(`severity_scores` dictionary). -/
def sevWeight : Severity → Nat
  | Severity.low => 10
  | Severity.med => 30
  | Severity.high => 60
  | Severity.critical => 100

/-- `RiskScore.from_rule_hits`: empty hit list yields score 0 / level `none`;
otherwise the score is `min(100, Σ weights)`, the level is read off the
maximal weight through the threshold chain, and the factors collect
`"id: message"` for every hit with a truthy (non-empty) message. -/
def RiskScore.fromRuleHits (hits : List RuleHit) : RiskScore :=
  match hits with
  | [] => { score := 0, level := RiskLevel.none }
  | h :: t =>
      -- Python `max(...)` over the non-empty generator: first element seeds the fold.
      let maxScore := (t.map (fun x => sevWeight x.severity)).foldl Nat.max
        (sevWeight h.severity)
      let totalScore := Nat.min 100 (((h :: t).map (fun x => sevWeight x.severity)).sum)
      let level :=
        if maxScore ≥ 100 then RiskLevel.critical
        else if maxScore ≥ 60 then RiskLevel.high
        else if maxScore ≥ 30 then RiskLevel.med
        else if maxScore > 0 then RiskLevel.low
        else RiskLevel.none
      let factors := (h :: t).filterMap (fun x =>
        match x.message with
        | Option.some m => if m = "" then Option.none else Option.some (x.id ++ ": " ++ m)
        | Option.none => Option.none)
      { score := totalScore, level := level, factors := factors }

/-! Specification-side definitions for claim C1, written from the spec's
words: the level is "the maximum severity among hits" (`none` when there are
no hits) and the score is `min(100, Σ weights)`. -/

/-- Rank used to compare severities (low < med < high < critical). -/
def sevRank : Severity → Nat
  | Severity.low => 0
  | Severity.med => 1
  | Severity.high => 2
  | Severity.critical => 3

/-- Maximum of two severities by rank. -/
def sevMax (a b : Severity) : Severity :=
  if sevRank a ≤ sevRank b then b else a

/-- The risk level corresponding to one severity, per the spec's
"level equals the maximum severity among hits". -/
def levelOfSeverity : Severity → RiskLevel
  | Severity.low => RiskLevel.low
  | Severity.med => RiskLevel.med
  | Severity.high => RiskLevel.high
  | Severity.critical => RiskLevel.critical

/-- Maximum severity of a hit list, `Option.none` for the empty list
(spec side). -/
def maxSeverity? (hits : List RuleHit) : Option Severity :=
  match hits with
  | [] => Option.none
  | h :: t => Option.some (t.foldl (fun a x => sevMax a x.severity) h.severity)

/-- The spec-side level of a hit list: maximum severity, `none` if empty. -/
def specLevel (hits : List RuleHit) : RiskLevel :=
  match maxSeverity? hits with
  | Option.none => RiskLevel.none
  | Option.some s => levelOfSeverity s

/-- Sum of the severity weights of a hit list (spec side). -/
def sumWeights (hits : List RuleHit) : Nat :=
  (hits.map (fun x => sevWeight x.severity)).sum

theorem sevWeight_sevMax (a b : Severity) :
    sevWeight (sevMax a b) = Nat.max (sevWeight a) (sevWeight b) := by
  cases a <;> cases b <;> decide

theorem foldl_weight_eq (t : List RuleHit) : ∀ s : Severity,
    (t.map (fun x => sevWeight x.severity)).foldl Nat.max (sevWeight s) =
      sevWeight (t.foldl (fun a x => sevMax a x.severity) s) := by
  induction t with
  | nil => intro s; rfl
  | cons h t ih =>
      intro s
      simp only [List.map_cons, List.foldl_cons]
      rw [← sevWeight_sevMax s h.severity]
      exact ih (sevMax s h.severity)

theorem level_thresholds (s : Severity) :
    (if sevWeight s ≥ 100 then RiskLevel.critical
     else if sevWeight s ≥ 60 then RiskLevel.high
     else if sevWeight s ≥ 30 then RiskLevel.med
     else if sevWeight s > 0 then RiskLevel.low
     else RiskLevel.none) = levelOfSeverity s := by
  cases s <;> decide

/-- C1. For every list of rule hits, `RiskScore.from_rule_hits` returns a
score equal to `min(100, Σ weights)` with weights low=10, med=30, high=60,
critical=100, and a level equal to the maximum severity among the hits
(`none` for an empty list); in particular the score is always at most 100. -/
theorem riskScore_fromRuleHits_spec (hits : List RuleHit) :
    (RiskScore.fromRuleHits hits).score = Nat.min 100 (sumWeights hits) ∧
    (RiskScore.fromRuleHits hits).level = specLevel hits ∧
    (RiskScore.fromRuleHits hits).score ≤ 100 := by
  refine ⟨?_, ?_, ?_⟩
  · cases hits with
    | nil => rfl
    | cons h t => rfl
  · cases hits with
    | nil => rfl
    | cons h t =>
        show (if _ ≥ 100 then RiskLevel.critical else _) = specLevel (h :: t)
        rw [foldl_weight_eq t h.severity]
        exact level_thresholds _
  · cases hits with
    | nil => exact Nat.zero_le _
    | cons h t => exact Nat.min_le_left _ _

/-! ## Decisions (`core/result.py`) and the middleware decision step
(`fastapi/middleware.py`). -/

/-- Directive for redacting sensitive data (`RedactionDirective`). -/
structure RedactionDirective where
  path : String
  action : String
  priority : Nat := 0
deriving DecidableEq, Repr

/-- The final decision of the evaluation pipeline (`Decision` in
`core/result.py`).  `metadata` in Python is a free-form dictionary; the
pipeline only ever passes an empty one, so string pairs model it. -/
structure Decision where
  version : String := "0.1"
  action : Action := Action.ALLOW
  statusCode : Nat := 200
  reason : Option String := Option.none
  ruleHits : List RuleHit := []
  risk : RiskScore := { score := 0, level := RiskLevel.none }
  redactions : List RedactionDirective := []
  metadata : List (String × String) := []
deriving DecidableEq, Repr

/-- `Decision.allow()` with no metadata argument (`metadata or {}` gives the
empty dictionary). -/
def Decision.allowD : Decision :=
  { action := Action.ALLOW, statusCode := 200 }

/-- `Decision.block(reason, rule_hits)` with the default status code 403. -/
def Decision.blockD (reason : String) (ruleHits : List RuleHit) : Decision :=
  { action := Action.BLOCK
    statusCode := 403
    reason := Option.some reason
    ruleHits := ruleHits
    risk := RiskScore.fromRuleHits ruleHits }

/-- Python's `x or default` for an optional string: `None` and the empty
string are falsy and yield the default. -/
def strOrDefault (x : Option String) (d : String) : String :=
  match x with
  | Option.none => d
  | Option.some s => if s = "" then d else s

/-- The predicate of the blocking loop in
`ContractShieldMiddleware._make_decision`:
`hit.severity in (Severity.CRITICAL, Severity.HIGH)`. -/
def isBlockingSeverity (h : RuleHit) : Bool :=
  h.severity == Severity.critical || h.severity == Severity.high

/-- `ContractShieldMiddleware._make_decision`: the first CRITICAL or HIGH hit
(in list order) produces `Decision.block(hit.message or "Policy violation",
all_hits)`; otherwise `Decision.allow()`. -/
def makeDecision (hits : List RuleHit) : Decision :=
  match hits.find? isBlockingSeverity with
  | Option.some h => Decision.blockD (strOrDefault h.message "Policy violation") hits
  | Option.none => Decision.allowD

/-- The decision-handling tail of `ContractShieldMiddleware.dispatch`
(lines 259-284): the `Decision` itself is computed independently of the
mode, and a block response is synthesized only when
`decision.action == Action.BLOCK and self.config.mode == "enforce"`. -/
structure DispatchDecision where
  decision : Decision
  blockedResponse : Bool
deriving DecidableEq, Repr

/-- Decision phase of `dispatch` as a function of the configured mode string
and the combined hit list. -/
def dispatchDecide (mode : String) (hits : List RuleHit) : DispatchDecision :=
  let decision := makeDecision hits
  { decision := decision
    blockedResponse := decision.action == Action.BLOCK && mode == "enforce" }

/-- A concrete HIGH-severity hit used in counterexamples. -/
def sampleHighHit : RuleHit :=
  { id := "vuln.sqli", severity := Severity.high,
    message := Option.some "SQL injection detected" }

/-- C2, counterexample.  Under monitor mode the pipeline's `Decision` for a
hit list containing a HIGH hit still has `action = BLOCK` and
`statusCode = 403`: it is not rewritten to `MONITOR` with status 200 as the
claim states. -/
theorem monitor_decision_counterexample :
    (dispatchDecide "monitor" [sampleHighHit]).decision.action = Action.BLOCK ∧
    (dispatchDecide "monitor" [sampleHighHit]).decision.statusCode = 403 ∧
    (dispatchDecide "monitor" [sampleHighHit]).decision.action ≠ Action.MONITOR := by
  refine ⟨rfl, rfl, ?_⟩
  decide

/-- C2, amended.  Under monitor mode the driver never synthesizes a block
response — the request is always forwarded — but the `Decision` object is
not rewritten: it is exactly `_make_decision`'s output, and with a HIGH or
CRITICAL hit present its action is still `BLOCK`. -/
theorem monitor_mode_never_blocks (hits : List RuleHit) :
    (dispatchDecide "monitor" hits).blockedResponse = false ∧
    (dispatchDecide "monitor" hits).decision = makeDecision hits ∧
    ((∃ h ∈ hits, isBlockingSeverity h = true) →
      (dispatchDecide "monitor" hits).decision.action = Action.BLOCK) := by
  refine ⟨?_, rfl, ?_⟩
  · show (_ && ("monitor" == "enforce")) = false
    simp [dispatchDecide]
  · rintro ⟨h, hmem, hsev⟩
    have hfind : ∃ h, hits.find? isBlockingSeverity = Option.some h := by
      rcases List.find?_isSome.mpr ⟨h, hmem, hsev⟩ with h1
      cases hh : hits.find? isBlockingSeverity with
      | none => rw [hh] at h1; cases h1
      | some x => exact ⟨x, rfl⟩
    rcases hfind with ⟨x, hx⟩
    show (makeDecision hits).action = Action.BLOCK
    unfold makeDecision
    rw [hx]
    rfl

/-- C2, witness for the amended theorem at a concrete input. -/
theorem monitor_mode_never_blocks_witness :
    (dispatchDecide "monitor" [sampleHighHit]).blockedResponse = false ∧
    (dispatchDecide "monitor" [sampleHighHit]).decision.action = Action.BLOCK :=
  ⟨(monitor_mode_never_blocks [sampleHighHit]).1,
   (monitor_mode_never_blocks [sampleHighHit]).2.2
     ⟨sampleHighHit, List.mem_singleton.mpr rfl, by decide⟩⟩

/-- A HIGH hit carrying no message, for the C3 counterexample. -/
def messagelessHighHit : RuleHit :=
  { id := "schema.request.invalid", severity := Severity.high }

/-- C3, counterexample.  For a hit list whose first (and only) HIGH hit has
no message, the decision's reason is the fallback string
"Policy violation", not the hit's message (`None`). -/
theorem decision_reason_counterexample :
    (makeDecision [messagelessHighHit]).reason = Option.some "Policy violation" ∧
    messagelessHighHit.message = Option.none := by
  exact ⟨rfl, rfl⟩

/-- C3, amended.  When the combined hit list contains a HIGH or CRITICAL
hit, the decision step returns `Decision.block` built from the first such
hit: its reason is that hit's message when present and non-empty, and the
fallback "Policy violation" otherwise; the status code is 403 and all hits
are attached.  When no HIGH or CRITICAL hit is present the returned action
is `ALLOW`, not `BLOCK`. -/
theorem makeDecision_spec (hits : List RuleHit) :
    (∀ h, hits.find? isBlockingSeverity = Option.some h →
      makeDecision hits =
        Decision.blockD (strOrDefault h.message "Policy violation") hits ∧
      (makeDecision hits).statusCode = 403) ∧
    (hits.find? isBlockingSeverity = Option.none →
      (makeDecision hits).action = Action.ALLOW) := by
  constructor
  · intro h hfind
    constructor
    · unfold makeDecision; rw [hfind]
    · unfold makeDecision; rw [hfind]; rfl
  · intro hfind
    unfold makeDecision; rw [hfind]; rfl

/-- C3, witness: the amended theorem applied at a one-element HIGH hit list
and at the empty list. -/
theorem makeDecision_spec_witness :
    makeDecision [sampleHighHit] =
      Decision.blockD "SQL injection detected" [sampleHighHit] ∧
    (makeDecision ([] : List RuleHit)).action = Action.ALLOW :=
  ⟨((makeDecision_spec [sampleHighHit]).1 sampleHighHit rfl).1,
   (makeDecision_spec []).2 rfl⟩

/-- C10.  With no HIGH or CRITICAL hit in the combined list,
`_make_decision` returns `Decision.allow()`: action `ALLOW`, status 200, no
reason, an empty `rule_hits` list (the LOW/MED hits passed in are dropped
from the `Decision`), risk score 0 at level `none`, and empty metadata. -/
theorem makeDecision_allow_spec (hits : List RuleHit)
    (hnone : ∀ h ∈ hits, h.severity ≠ Severity.critical ∧ h.severity ≠ Severity.high) :
    makeDecision hits =
      { version := "0.1", action := Action.ALLOW, statusCode := 200,
        reason := Option.none, ruleHits := [],
        risk := { score := 0, level := RiskLevel.none, factors := [] },
        redactions := [], metadata := [] } := by
  have hfind : hits.find? isBlockingSeverity = Option.none := by
    apply List.find?_eq_none.mpr
    intro h hmem
    rcases hnone h hmem with ⟨h1, h2⟩
    simp [isBlockingSeverity, h1, h2]
  unfold makeDecision
  rw [hfind]
  rfl

/-- C10, witness: a list holding one LOW and one MED hit still yields the
plain `ALLOW` decision with no attached hits. -/
theorem makeDecision_allow_spec_witness :
    makeDecision
      [{ id := "policy.cel_error.r1", severity := Severity.low,
         message := Option.some "CEL evaluation error: x" },
       { id := "schema.request.invalid", severity := Severity.med,
         message := Option.some "bad email" }] =
      { version := "0.1", action := Action.ALLOW, statusCode := 200,
        reason := Option.none, ruleHits := [],
        risk := { score := 0, level := RiskLevel.none, factors := [] },
        redactions := [], metadata := [] } :=
  makeDecision_allow_spec _ (by decide)

/-! ## JSON-like values.

Python values flowing through the pipeline (parsed JSON bodies, the CEL
evaluation context) are modelled as a tree.  Numbers are rationals: Python
`int` is unbounded and `float` is IEEE double; no verified claim depends on
float rounding.  Python dictionaries preserve insertion order and
`json.loads` keeps the last duplicate key, so association lists with the
dictionary operations model them. -/

inductive Value where
  | null
  | bool (b : Bool)
  | num (q : Rat)
  | str (s : String)
  | arr (elems : List Value)
  | obj (fields : List (String × Value))

/-! ## Context building (`ContractShieldMiddleware._build_context`) and the
driver's error handling (`dispatch` lines 224-235), for claims C4 and C9. -/

/-- UTF-8 byte length of a text.  The request body bytes are modelled as
the text they decode to, so `len(body_raw)` (a byte count) is this
function; it coincides with `String.utf8ByteSize`, re-stated by structural
recursion over the character list to keep the proofs elementary. -/
def utf8Len (s : String) : Nat :=
  (s.data.map Char.utf8Size).sum

theorem one_le_utf8Size (c : Char) : 1 ≤ c.utf8Size := by
  simp only [Char.utf8Size]
  repeat' split
  all_goals simp

theorem length_le_utf8Len (s : String) : s.length ≤ utf8Len s := by
  show s.data.length ≤ (s.data.map Char.utf8Size).sum
  induction s.data with
  | nil => exact Nat.le_refl 0
  | cons c cs ih =>
      simp only [List.length_cons, List.map_cons, List.sum_cons]
      have := one_le_utf8Size c
      omega

theorem utf8Len_pos_of_ne_empty (s : String) (h : s ≠ "") : 0 < utf8Len s := by
  have hd : s.data ≠ [] := by
    intro hnil
    exact h (congrArg String.mk hnil)
  cases hs : s.data with
  | nil => exact absurd hs hd
  | cons c cs =>
      show 0 < (s.data.map Char.utf8Size).sum
      rw [hs]
      simp only [List.map_cons, List.sum_cons]
      have := one_le_utf8Size c
      omega

/-- The inputs `_build_context` reads from the incoming request.  The raw
body bytes are modelled as the UTF-8 text they decode to (so
`body_raw.decode("utf-8", errors="replace")` is the identity); `contentType`
is `request.headers.get("content-type", "")`. -/
structure RawRequest where
  method : String
  path : String
  contentType : String
  body : String

/-- Normalized request body (`RequestBody` in `core/result.py`). -/
structure RequestBody where
  present : Bool
  sizeBytes : Nat
  sha256 : Option String := Option.none
  raw : Option String := Option.none
  json : Option Value := Option.none
  redacted : Bool := false

/-- The two `ValueError`s `_build_context` can raise: "Request body too
large" and "Invalid JSON body: ...". -/
inductive BuildError where
  | payloadTooLarge
  | invalidJson
deriving DecidableEq, Repr

/-- Whether a character list contains a given character sequence
(Python's `in` on strings). -/
def containsSeq (hay needle : List Char) : Bool :=
  hay.tails.any (fun t => needle.isPrefixOf t)

/-- Python's `"application/json" in content_type`. -/
def hasJsonContentType (contentType : String) : Bool :=
  containsSeq contentType.toList "application/json".toList

/-- The body read in `_build_context`: only POST/PUT/PATCH/DELETE requests
have their body read; for other methods `body_raw` stays empty. -/
def readBodyRaw (req : RawRequest) : String :=
  if req.method = "POST" ∨ req.method = "PUT" ∨ req.method = "PATCH" ∨
      req.method = "DELETE" then req.body else ""

/-- The `RequestBody` constructed at the end of `_build_context`:
`present = len(body_raw) > 0`, `size_bytes = len(body_raw)`, and `raw`,
`sha256` populated only for a non-empty body (`if body_raw else None`). -/
def finishBody (hash : String → String) (bodyRaw : String)
    (bodyJson : Option Value) : RequestBody :=
  { present := utf8Len bodyRaw > 0
    sizeBytes := utf8Len bodyRaw
    sha256 := if bodyRaw ≠ "" then Option.some (hash bodyRaw) else Option.none
    raw := if bodyRaw ≠ "" then Option.some bodyRaw else Option.none
    json := bodyJson }

/-- `ContractShieldMiddleware._build_context`, body part.  `parse` stands
for `json.loads` (Python's JSON parser, external to the repository) and
`hash` for `hashlib.sha256(...).hexdigest()`; both are abstracted as
function parameters.  A body longer than `maxBodySize` bytes raises before
the JSON parse is attempted; the parse is attempted only for a JSON
content type and a non-empty body. -/
def buildRequestBody (hash : String → String) (parse : String → Option Value)
    (maxBodySize : Nat) (req : RawRequest) : Except BuildError RequestBody :=
  let bodyRaw := readBodyRaw req
  if utf8Len bodyRaw > maxBodySize then
    Except.error BuildError.payloadTooLarge
  else if hasJsonContentType req.contentType = true ∧ bodyRaw ≠ "" then
    match parse bodyRaw with
    | Option.some v => Except.ok (finishBody hash bodyRaw (Option.some v))
    | Option.none => Except.error BuildError.invalidJson
  else
    Except.ok (finishBody hash bodyRaw Option.none)

/-- Outcome of the context-building prologue of `dispatch`: a synthesized
400 block response, a forward with no evaluation, or the normal path
carrying the built body. -/
inductive EarlyOutcome where
  | blockedResp (status : Nat)
  | forwardNoEval
  | proceed (body : RequestBody)

/-- Lines 224-235 of `dispatch`: on any context-building exception, a 400
block response in `enforce` mode, otherwise a plain forward with no
evaluation. -/
def dispatchBuild (mode : String) (build : Except BuildError RequestBody) :
    EarlyOutcome :=
  match build with
  | Except.error _ => if mode == "enforce" then EarlyOutcome.blockedResp 400
      else EarlyOutcome.forwardNoEval
  | Except.ok b => EarlyOutcome.proceed b

/-- C4.  When building the request context fails — which happens exactly
when the body read exceeds `max_body_size`, or when it fits, has a JSON
content type, is non-empty and fails to parse — the pipeline returns a 400
block response in `enforce` mode and forwards the request with no
evaluation in `monitor` mode. -/
theorem buildFailure_dispatch (hash : String → String)
    (parse : String → Option Value) (maxBodySize : Nat) (req : RawRequest)
    (e : BuildError)
    (herr : buildRequestBody hash parse maxBodySize req = Except.error e) :
    dispatchBuild "enforce" (buildRequestBody hash parse maxBodySize req) =
      EarlyOutcome.blockedResp 400 ∧
    dispatchBuild "monitor" (buildRequestBody hash parse maxBodySize req) =
      EarlyOutcome.forwardNoEval ∧
    ((e = BuildError.payloadTooLarge ∧
        utf8Len (readBodyRaw req) > maxBodySize) ∨
     (e = BuildError.invalidJson ∧ utf8Len (readBodyRaw req) ≤ maxBodySize ∧
        hasJsonContentType req.contentType = true ∧ readBodyRaw req ≠ "" ∧
        parse (readBodyRaw req) = Option.none)) := by
  refine ⟨by rw [herr]; rfl, by rw [herr]; rfl, ?_⟩
  unfold buildRequestBody at herr
  by_cases hsize : utf8Len (readBodyRaw req) > maxBodySize
  · left
    rw [if_pos hsize] at herr
    cases herr
    exact ⟨rfl, hsize⟩
  · right
    rw [if_neg hsize] at herr
    by_cases hct : hasJsonContentType req.contentType = true ∧ readBodyRaw req ≠ ""
    · rw [if_pos hct] at herr
      cases hp : parse (readBodyRaw req) with
      | none =>
          rw [hp] at herr
          cases herr
          exact ⟨rfl, Nat.le_of_not_lt hsize, hct.1, hct.2, rfl⟩
      | some v => rw [hp] at herr; cases herr
    · rw [if_neg hct] at herr
      cases herr

/-- C4, witness: a POST request with JSON content type and an unparsable
body is a 400 block under `enforce` and a no-evaluation forward under
`monitor`. -/
theorem buildFailure_dispatch_witness :
    dispatchBuild "enforce"
      (buildRequestBody (fun _ => "h") (fun _ => Option.none) 1024
        { method := "POST", path := "/users", contentType := "application/json",
          body := "not json" }) = EarlyOutcome.blockedResp 400 ∧
    dispatchBuild "monitor"
      (buildRequestBody (fun _ => "h") (fun _ => Option.none) 1024
        { method := "POST", path := "/users", contentType := "application/json",
          body := "not json" }) = EarlyOutcome.forwardNoEval := by
  have h := buildFailure_dispatch (fun _ => "h") (fun _ => Option.none) 1024
    { method := "POST", path := "/users", contentType := "application/json",
      body := "not json" } BuildError.invalidJson rfl
  exact ⟨h.1, h.2.1⟩

/-- C9, counterexample.  A POST body consisting of the single two-byte
UTF-8 character `é` yields `size_bytes = 2` while `raw` is the decoded
one-character string, so `size_bytes` differs from `len(raw)`. -/
theorem requestBody_size_counterexample :
    buildRequestBody (fun _ => "h") (fun _ => Option.none) 1024
        { method := "POST", path := "/p", contentType := "text/plain",
          body := "é" } =
      Except.ok (finishBody (fun _ => "h") "é" Option.none) ∧
    (finishBody (fun _ => "h") "é" Option.none).raw = Option.some "é" ∧
    (finishBody (fun _ => "h") "é" Option.none).sizeBytes = 2 ∧
    "é".length = 1 ∧
    (finishBody (fun _ => "h") "é" Option.none).sizeBytes ≠ "é".length := by
  refine ⟨rfl, rfl, rfl, rfl, by decide⟩

/-- C9, amended.  Every `RequestBody` built by the context normalizer
satisfies: when `raw` is present, `size_bytes` equals the UTF-8 byte size
of `raw` (the byte length of the request body) — which is at least, but not
in general equal to, the character count `len(raw)` — and a non-nil `json`
implies `present`. -/
theorem requestBody_invariants (hash : String → String)
    (parse : String → Option Value) (maxBodySize : Nat) (req : RawRequest)
    (b : RequestBody)
    (hok : buildRequestBody hash parse maxBodySize req = Except.ok b) :
    (∀ s, b.raw = Option.some s →
      b.sizeBytes = utf8Len s ∧ s.length ≤ b.sizeBytes) ∧
    (b.json ≠ Option.none → b.present = true) := by
  have hfin : ∀ bj : Option Value, b = finishBody hash (readBodyRaw req) bj →
      (bj ≠ Option.none → readBodyRaw req ≠ "") →
      (∀ s, b.raw = Option.some s →
        b.sizeBytes = utf8Len s ∧ s.length ≤ b.sizeBytes) ∧
      (b.json ≠ Option.none → b.present = true) := by
    intro bj heq hne
    subst heq
    constructor
    · intro s hs
      by_cases hraw : readBodyRaw req ≠ ""
      · have hs2 : Option.some (readBodyRaw req) = Option.some s := by
          rw [← hs]
          show Option.some _ = (if readBodyRaw req ≠ "" then _ else _)
          rw [if_pos hraw]
        cases hs2
        exact ⟨rfl, length_le_utf8Len _⟩
      · exfalso
        have hs2 : (Option.none : Option String) = Option.some s := by
          rw [← hs]
          show Option.none = (if readBodyRaw req ≠ "" then _ else _)
          rw [if_neg hraw]
        cases hs2
    · intro hj
      have hne2 : readBodyRaw req ≠ "" := hne hj
      show decide (utf8Len (readBodyRaw req) > 0) = true
      simpa using utf8Len_pos_of_ne_empty _ hne2
  unfold buildRequestBody at hok
  by_cases hsize : utf8Len (readBodyRaw req) > maxBodySize
  · rw [if_pos hsize] at hok; cases hok
  rw [if_neg hsize] at hok
  by_cases hct : hasJsonContentType req.contentType = true ∧ readBodyRaw req ≠ ""
  · rw [if_pos hct] at hok
    cases hp : parse (readBodyRaw req) with
    | none => rw [hp] at hok; cases hok
    | some v =>
        rw [hp] at hok
        cases hok
        exact hfin (Option.some v) rfl (fun _ => hct.2)
  · rw [if_neg hct] at hok
    cases hok
    exact hfin Option.none rfl (fun hc => absurd rfl hc)

/-- C9, witness for the amended invariant at a concrete multi-byte body. -/
theorem requestBody_invariants_witness :
    (finishBody (fun _ => "h") "é" Option.none).sizeBytes = utf8Len "é" ∧
    "é".length ≤ (finishBody (fun _ => "h") "é" Option.none).sizeBytes := by
  have h := requestBody_invariants (fun _ => "h") (fun _ => Option.none) 1024
    { method := "POST", path := "/p", contentType := "text/plain",
      body := "é" } (finishBody (fun _ => "h") "é" Option.none) rfl
  exact h.1 "é" rfl

/-! ## Unmatched-route handling (claim C8).

`core/contract.py` defines `UnmatchedAction` with members `allow`, `block`,
`monitor` (a `str` enum, so each member compares equal to its value
string).  `ContractShieldMiddleware._evaluate_policy` (lines 388-398), when
no policy route matches, emits a `policy.unmatched` HIGH hit only when the
defaults' unmatched action equals the string `"deny"`.  (The middleware
actually reads attributes `find_route` / `unmatched_action` that do not
exist on `PolicySet` / `PolicyDefaults` — the model below charitably
aligns the names; even so the comparison can never succeed.) -/

/-- `UnmatchedAction` enum from `core/contract.py`. -/
inductive UnmatchedAction where
  | allow
  | block
  | monitor
deriving DecidableEq, Repr

/-- The `.value` string of each `UnmatchedAction` member. -/
def UnmatchedAction.valueStr : UnmatchedAction → String
  | UnmatchedAction.allow => "allow"
  | UnmatchedAction.block => "block"
  | UnmatchedAction.monitor => "monitor"

/-- The unmatched-route branch of
`ContractShieldMiddleware._evaluate_policy`: the HIGH `policy.unmatched`
hit is appended only when the unmatched action equals `"deny"`. -/
def evaluatePolicyUnmatched (ua : UnmatchedAction) (method path : String) :
    List RuleHit :=
  if ua.valueStr == "deny" then
    [{ id := "policy.unmatched", severity := Severity.high,
       message := Option.some ("No policy route matches: " ++ method ++ " " ++ path) }]
  else
    []

/-- C8.  The unmatched-route branch never emits a hit, whatever the
configured unmatched action: the code compares against `"deny"`, which is
not a member of `UnmatchedAction` (`allow`/`block`/`monitor`).  In
particular `block` does not produce the HIGH `policy.unmatched` hit and
`monitor` does not produce a MED hit, contradicting the claim. -/
theorem evaluatePolicyUnmatched_never_hits (ua : UnmatchedAction)
    (method path : String) :
    evaluatePolicyUnmatched ua method path = [] ∧
    (ua.valueStr == "deny") = false := by
  cases ua <;> exact ⟨rfl, rfl⟩

/-! ## The safe CEL evaluator (`cel/evaluator.py`, `BuiltinCELEvaluator`),
for claims C5 and C6.

Expressions are handled as character lists.  The ten regular expressions of
`PATTERNS` are hand-compiled to anchored maximal-munch recognizers; each
greedy sub-pattern is followed only by characters its class excludes, so
maximal munch is exactly the regex's leftmost-greedy behaviour (argued
case by case in the comments).  Python's `re` module classes are modelled
over ASCII (`\w` as alphanumeric or underscore, `\s` as the six ASCII
whitespace characters, `\d` as the ten digits); Unicode membership beyond
ASCII is not used by any verified statement. -/

/-- Python regex `\s` (ASCII): space, tab, newline, carriage return,
vertical tab, form feed. -/
def pySpace (c : Char) : Bool :=
  c == ' ' || c == '\t' || c == '\n' || c == '\r' ||
    c == Char.ofNat 11 || c == Char.ofNat 12

/-- Python regex `\w` (ASCII): letters, digits, underscore. -/
def wordChar (c : Char) : Bool :=
  c.isAlphanum || c == '_'

/-- The class `[\w.]`. -/
def wordDotChar (c : Char) : Bool :=
  wordChar c || c == '.'

/-- Drop leading `\s*`. -/
def dropSpaces (cs : List Char) : List Char :=
  cs.dropWhile pySpace

/-- Python `str.strip()`: remove leading and trailing whitespace. -/
def pyStripL (cs : List Char) : List Char :=
  ((cs.dropWhile pySpace).reverse.dropWhile pySpace).reverse

/-- The single-quote character (written by code point to keep the source
plain). -/
def squote : Char := Char.ofNat 39

/-- The double-quote character. -/
def dquote : Char := '"'

/-- Consume an exact literal prefix, returning the remainder. -/
def expectPre : List Char → List Char → Option (List Char)
  | [], cs => Option.some cs
  | _ :: _, [] => Option.none
  | l :: ls, c :: cs => if l = c then expectPre ls cs else Option.none

/-- Value of a digit character. -/
def digitVal (c : Char) : Nat := c.toNat - 48

/-- Value of a non-empty digit run (no underscores). -/
def natOfDigits (cs : List Char) : Nat :=
  cs.foldl (fun n c => n * 10 + digitVal c) 0

/-- Python integer-literal digit runs: `digit+` with single underscores
allowed between digits, accumulating the value and the digit count. -/
def digitGroups : List Char → Nat → Nat → Option (Nat × Nat)
  | [], v, n => Option.some (v, n)
  | '_' :: c :: rest, v, n =>
      if c.isDigit then digitGroups rest (v * 10 + digitVal c) (n + 1)
      else Option.none
  | ['_'], _, _ => Option.none
  | c :: rest, v, n =>
      if c.isDigit then digitGroups rest (v * 10 + digitVal c) (n + 1)
      else Option.none

/-- A full digit run: non-empty, starting with a digit. -/
def digitRun? (cs : List Char) : Option (Nat × Nat) :=
  match cs with
  | [] => Option.none
  | c :: rest => if c.isDigit then digitGroups rest (digitVal c) 1 else Option.none

/-- Python `int(s)` on an already-stripped string: optional sign then a
digit run (ASCII digits; underscore separators honored). -/
def pyInt? (cs : List Char) : Option Rat :=
  match cs with
  | '+' :: rest => (digitRun? rest).map (fun p => (p.1 : Rat))
  | '-' :: rest => (digitRun? rest).map (fun p => -(p.1 : Rat))
  | _ => (digitRun? cs).map (fun p => (p.1 : Rat))

/-- Split at the first character satisfying `p`, if any. -/
def splitFirst? (p : Char → Bool) : List Char → Option (List Char × List Char)
  | [] => Option.none
  | c :: rest =>
      if p c then Option.some ([], rest)
      else (splitFirst? p rest).map (fun pr => (c :: pr.1, pr.2))

/-- Powers of ten (plain structural recursion so that concrete float
literals evaluate by `rfl`). -/
def pow10N : Nat → Nat
  | 0 => 1
  | Nat.succ n => 10 * pow10N n

/-- Mantissa of a Python float literal: `digits [. [digits]] | . digits`
(at least one digit overall, underscores between digits).  The result is
the concatenated digit value together with the count of fractional digits
(the mantissa denotes `value / 10 ^ count`). -/
def floatMantissa? (cs : List Char) : Option (Nat × Nat) :=
  match splitFirst? (fun c => c == '.') cs with
  | Option.none => (digitRun? cs).map (fun p => (p.1, 0))
  | Option.some (ip, fp) =>
      match ip, fp with
      | [], [] => Option.none
      | [], _ => digitRun? fp
      | _, [] => (digitRun? ip).map (fun p => (p.1, 0))
      | _, _ =>
          match digitRun? ip, digitRun? fp with
          | Option.some a, Option.some b =>
              Option.some (a.1 * pow10N b.2 + b.1, b.2)
          | _, _ => Option.none

/-- Body of a Python float literal with optional exponent.
`inf`/`infinity`/`nan` spellings have no rational counterpart and are not
modelled; no verified statement depends on them. -/
def floatBody? (cs : List Char) : Option Rat :=
  match splitFirst? (fun c => c == 'e' || c == 'E') cs with
  | Option.none => (floatMantissa? cs).map (fun m => mkRat m.1 (pow10N m.2))
  | Option.some (m, ex) =>
      let signedExp : Bool × List Char :=
        match ex with
        | '+' :: t => (false, t)
        | '-' :: t => (true, t)
        | _ => (false, ex)
      match floatMantissa? m, digitRun? signedExp.2 with
      | Option.some mant, Option.some p =>
          Option.some (if signedExp.1 then mkRat mant.1 (pow10N (mant.2 + p.1))
            else mkRat (mant.1 * pow10N p.1) (pow10N mant.2))
      | _, _ => Option.none

/-- Python `float(s)`: strip whitespace, optional sign, then the float
body. -/
def pyFloat? (cs : List Char) : Option Rat :=
  match pyStripL cs with
  | '+' :: rest => floatBody? rest
  | '-' :: rest => (floatBody? rest).map (fun q => -q)
  | stripped => floatBody? stripped

/-- `BuiltinCELEvaluator._parse_value`: strip, then `true`/`false`, then a
string quoted on both ends by the same quote character, then a number
(`float` when a dot occurs in the text, else `int`), else the text itself
(a bare path is returned as-is for comparison). -/
def parseValue (cs0 : List Char) : Value :=
  let cs := pyStripL cs0
  if cs = "true".toList then Value.bool true
  else if cs = "false".toList then Value.bool false
  else if (cs.head? = Option.some dquote ∧ cs.getLast? = Option.some dquote) ∨
      (cs.head? = Option.some squote ∧ cs.getLast? = Option.some squote) then
    Value.str (String.mk ((cs.drop 1).dropLast))
  else
    match (if cs.contains '.' then pyFloat? cs else pyInt? cs) with
    | Option.some q => Value.num q
    | Option.none => Value.str (String.mk cs)

/-- `BuiltinCELEvaluator._parse_list`: character scan with a quote state;
commas outside quotes separate elements, each parsed by `_parse_value`; a
final fragment is kept only when its strip is non-empty. -/
def parseListAux : List Char → Bool → Char → List Char → List Value → List Value
  | [], _, _, current, acc =>
      if pyStripL current ≠ [] then acc ++ [parseValue (pyStripL current)] else acc
  | c :: rest, inString, quoteChar, current, acc =>
      if (c = dquote ∨ c = squote) ∧ inString = false then
        parseListAux rest true c (current ++ [c]) acc
      else if c = quoteChar ∧ inString = true then
        parseListAux rest false quoteChar (current ++ [c]) acc
      else if c = ',' ∧ inString = false then
        parseListAux rest inString quoteChar [] (acc ++ [parseValue (pyStripL current)])
      else
        parseListAux rest inString quoteChar (current ++ [c]) acc

/-- Parse the inside of a membership list. -/
def parseListVals (cs : List Char) : List Value :=
  parseListAux cs false dquote [] []

/-- Split a dotted path on periods (Python `path.split(".")`). -/
def splitOnDot : List Char → List (List Char)
  | [] => [[]]
  | c :: rest =>
      if c = '.' then [] :: splitOnDot rest
      else
        match splitOnDot rest with
        | [] => [[c]]
        | p :: ps => (c :: p) :: ps

/-- Python `dict.get` over the association-list model (objects produced by
`json.loads` carry no duplicate keys). -/
def lookupField : List (String × Value) → String → Option Value
  | [], _ => Option.none
  | (k2, v) :: t, k => if k2 = k then Option.some v else lookupField t k

/-- `BuiltinCELEvaluator._get_value`: walk the context by parts; a missing
key, a `None` value or a non-dict intermediate yields `None`. -/
def getValueParts : Value → List String → Value
  | v, [] => v
  | Value.obj fs, p :: ps =>
      match lookupField fs p with
      | Option.none => Value.null
      | Option.some Value.null => Value.null
      | Option.some v => getValueParts v ps
  | _, _ :: _ => Value.null

/-- `_get_value` with a dotted path. -/
def getValue (ctx : Value) (path : List Char) : Value :=
  getValueParts ctx ((splitOnDot path).map (fun p => String.mk p))

/-! Python `==` over the value model (`pyEq` below).  Booleans are numbers
(`True == 1`); `int` and `float` compare numerically; dictionaries compare
key-by-key (Python's dict equality ignores insertion order, but every
object compared here comes from `json.loads`, which preserves it, so
positional comparison of the duplicate-free association lists
coincides). -/
mutual

def pyEq : Value → Value → Bool
  | Value.null, Value.null => true
  | Value.bool x, Value.bool y => x == y
  | Value.bool x, Value.num q => (if x then (1 : Rat) else 0) == q
  | Value.num q, Value.bool y => q == (if y then (1 : Rat) else 0)
  | Value.num p, Value.num q => p == q
  | Value.str s, Value.str t => s == t
  | Value.arr xs, Value.arr ys => pyEqList xs ys
  | Value.obj xs, Value.obj ys => pyEqFields xs ys
  | _, _ => false

def pyEqList : List Value → List Value → Bool
  | [], [] => true
  | x :: xs, y :: ys => pyEq x y && pyEqList xs ys
  | _, _ => false

def pyEqFields : List (String × Value) → List (String × Value) → Bool
  | [], [] => true
  | (k, v) :: xs, (k2, v2) :: ys => k == k2 && pyEq v v2 && pyEqFields xs ys
  | _, _ => false

end

/-- Comparison operators appearing in the `size_check` and numeric
patterns. -/
inductive CmpOp where
  | lt
  | le
  | gt
  | ge
  | eq
deriving DecidableEq, Repr

/-- `BuiltinCELEvaluator._compare` on integers. -/
def cmpNat (a : Nat) (op : CmpOp) (b : Nat) : Bool :=
  match op with
  | CmpOp.lt => a < b
  | CmpOp.le => a ≤ b
  | CmpOp.gt => a > b
  | CmpOp.ge => a ≥ b
  | CmpOp.eq => a == b

/-- `BuiltinCELEvaluator._compare` on floats. -/
def cmpRat (a : Rat) (op : CmpOp) (b : Rat) : Bool :=
  match op with
  | CmpOp.lt => a < b
  | CmpOp.le => a ≤ b
  | CmpOp.gt => a > b
  | CmpOp.ge => a ≥ b
  | CmpOp.eq => a == b

/-- A successfully matched pattern together with its captures, in the
order the `PATTERNS` dictionary tries them. -/
inductive Matched where
  | auth (b : Bool)
  | tenant (field : List Char)
  | subject (field : List Char)
  | eqCmp (path rhs : List Char)
  | neCmp (path rhs : List Char)
  | member (path inner : List Char)
  | sizeCmp (path : List Char) (op : CmpOp) (n : Nat)
  | numCmp (path : List Char) (op : CmpOp) (q : Rat)
deriving Repr

/-- Shared head of the three fixed-left-side equality patterns:
`lit\s*==\s*` — the literal, any whitespace, `==`, any whitespace;
returns the remainder. -/
def matchEqHead (lit cs : List Char) : Option (List Char) :=
  (expectPre lit cs).bind (fun r1 =>
    (expectPre ['=', '='] (dropSpaces r1)).map (fun r2 => dropSpaces r2))

/-- Pattern `auth_check`: `^identity\.authenticated\s*==\s*(true|false)$`. -/
def matchAuth (cs : List Char) : Option Matched :=
  (matchEqHead "identity.authenticated".toList cs).bind (fun rest =>
    if rest = "true".toList then Option.some (Matched.auth true)
    else if rest = "false".toList then Option.some (Matched.auth false)
    else Option.none)

/-- Shared tail of the binding patterns: `request\.body\.(\w+)$`. -/
def matchBodyField (rest : List Char) : Option (List Char) :=
  (expectPre "request.body.".toList rest).bind (fun f =>
    if f ≠ [] ∧ f.all wordChar then Option.some f else Option.none)

/-- Pattern `tenant_binding`:
`^identity\.tenant\s*==\s*request\.body\.(\w+)$`. -/
def matchTenant (cs : List Char) : Option Matched :=
  (matchEqHead "identity.tenant".toList cs).bind (fun rest =>
    (matchBodyField rest).map Matched.tenant)

/-- Pattern `subject_binding`:
`^identity\.subject\s*==\s*request\.body\.(\w+)$`. -/
def matchSubject (cs : List Char) : Option Matched :=
  (matchEqHead "identity.subject".toList cs).bind (fun rest =>
    (matchBodyField rest).map Matched.subject)

/-- The greedy group-2 tail `\s*(.+)$` of the equality patterns: drop the
whitespace, then the rest must be non-empty and free of newlines (`.` does
not cross a newline, and a stripped subject string cannot end in one). -/
def groupToEnd (r : List Char) : Option (List Char) :=
  let g := dropSpaces r
  if g ≠ [] ∧ g.all (fun c => c ≠ '\n') then Option.some g else Option.none

/-- Pattern `equality`: `^([\w.]+)\s*==\s*(.+)$`.  The leading `[\w.]+` is
maximal munch: giving characters back would put a word character where
`==` must start. -/
def matchEquality (cs : List Char) : Option Matched :=
  let g1 := cs.takeWhile wordDotChar
  let r1 := cs.dropWhile wordDotChar
  if g1 = [] then Option.none
  else
    (expectPre ['=', '='] (dropSpaces r1)).bind (fun r2 =>
      (groupToEnd r2).map (fun g2 => Matched.eqCmp g1 g2))

/-- Pattern `inequality`: `^([\w.]+)\s*!=\s*(.+)$`. -/
def matchInequality (cs : List Char) : Option Matched :=
  let g1 := cs.takeWhile wordDotChar
  let r1 := cs.dropWhile wordDotChar
  if g1 = [] then Option.none
  else
    (expectPre ['!', '='] (dropSpaces r1)).bind (fun r2 =>
      (groupToEnd r2).map (fun g2 => Matched.neCmp g1 g2))

/-- Require at least one whitespace character, then drop the rest
(`\s+`). -/
def dropSpacesOne (cs : List Char) : Option (List Char) :=
  match cs with
  | c :: rest => if pySpace c then Option.some (dropSpaces rest) else Option.none
  | [] => Option.none

/-- Pattern `membership`: `^([\w.]+)\s+in\s+\[(.+)\]$`.  The greedy inner
group reaches the last `]`, which the `$` anchor forces to be the final
character of the (stripped) subject. -/
def matchMembership (cs : List Char) : Option Matched :=
  let g1 := cs.takeWhile wordDotChar
  let r1 := cs.dropWhile wordDotChar
  if g1 = [] then Option.none
  else
    (dropSpacesOne r1).bind (fun r2 =>
      (expectPre ['i', 'n'] r2).bind (fun r3 =>
        (dropSpacesOne r3).bind (fun r4 =>
          (expectPre ['['] r4).bind (fun r5 =>
            match r5.getLast? with
            | Option.some ']' =>
                let mid := r5.dropLast
                if mid ≠ [] ∧ mid.all (fun c => c ≠ '\n') then
                  Option.some (Matched.member g1 mid)
                else Option.none
            | _ => Option.none))))

/-- The operator alternation `(<=|<|>=|>|==)` (two-character alternatives
are listed before their one-character prefixes). -/
def matchOp (cs : List Char) : Option (CmpOp × List Char) :=
  match cs with
  | '<' :: '=' :: rest => Option.some (CmpOp.le, rest)
  | '<' :: rest => Option.some (CmpOp.lt, rest)
  | '>' :: '=' :: rest => Option.some (CmpOp.ge, rest)
  | '>' :: rest => Option.some (CmpOp.gt, rest)
  | '=' :: '=' :: rest => Option.some (CmpOp.eq, rest)
  | _ => Option.none

/-- Pattern `size_check`: `^size\(([\w.]+)\)\s*(<=|<|>=|>|==)\s*(\d+)$`. -/
def matchSize (cs : List Char) : Option Matched :=
  (expectPre "size(".toList cs).bind (fun r1 =>
    let g := r1.takeWhile wordDotChar
    let r2 := r1.dropWhile wordDotChar
    if g = [] then Option.none
    else
      (expectPre [')'] r2).bind (fun r3 =>
        (matchOp (dropSpaces r3)).bind (fun pr =>
          let r5 := dropSpaces pr.2
          if r5 ≠ [] ∧ r5.all Char.isDigit then
            Option.some (Matched.sizeCmp g pr.1 (natOfDigits r5))
          else Option.none)))

/-- The numeric literal group `(-?\d+(?:\.\d+)?)$`. -/
def parseNumGroup (cs : List Char) : Option Rat :=
  let signed : Bool × List Char :=
    match cs with
    | '-' :: t => (true, t)
    | _ => (false, cs)
  let ds := signed.2.takeWhile Char.isDigit
  let r := signed.2.dropWhile Char.isDigit
  if ds = [] then Option.none
  else
    let base : Option Rat :=
      match r with
      | [] => Option.some (mkRat (natOfDigits ds) 1)
      | '.' :: fs =>
          if fs ≠ [] ∧ fs.all Char.isDigit then
            Option.some (mkRat (natOfDigits ds * pow10N fs.length +
              natOfDigits fs) (pow10N fs.length))
          else Option.none
      | _ => Option.none
    base.map (fun q => if signed.1 then -q else q)

/-- One numeric pattern `^([\w.]+)\s*OP\s*(-?\d+(?:\.\d+)?)$` for the given
operator characters. -/
def matchNumericWith (opChars : List Char) (op : CmpOp) (cs : List Char) :
    Option Matched :=
  let g1 := cs.takeWhile wordDotChar
  let r1 := cs.dropWhile wordDotChar
  if g1 = [] then Option.none
  else
    (expectPre opChars (dropSpaces r1)).bind (fun r2 =>
      (parseNumGroup (dropSpaces r2)).map (fun q => Matched.numCmp g1 op q))

/-- The `PATTERNS` dictionary tried in insertion order.  The numeric
patterns keep the dictionary's `>`-before-`>=` order: on an input such as
`a >= 3` the `numeric_gt` pattern fails (after `>` the literal group
cannot start with `=`) and `numeric_gte` matches. -/
def tryPatterns (cs : List Char) : Option Matched :=
  (matchAuth cs) <|> (matchTenant cs) <|> (matchSubject cs) <|>
  (matchEquality cs) <|> (matchInequality cs) <|> (matchMembership cs) <|>
  (matchSize cs) <|>
  (matchNumericWith ['>'] CmpOp.gt cs) <|>
  (matchNumericWith ['>', '='] CmpOp.ge cs) <|>
  (matchNumericWith ['<'] CmpOp.lt cs) <|>
  (matchNumericWith ['<', '='] CmpOp.le cs)

/-- Errors of the evaluator model: `CELEvaluationError` carrying the
expression, and Python `TypeError` (raised by `len` on sizeless values).
`fuelExhausted` is an artifact of the fueled recursion; the fuel
`length + 1` used by `evaluate` never runs out (each compound part is
strictly shorter than the whole). -/
inductive CelErr where
  | celError (expr : List Char)
  | typeError
  | fuelExhausted
deriving DecidableEq, Repr

/-- `len(value) if value is not None else 0`: `None` counts 0, strings
count characters, arrays and objects count elements/keys, numbers and
booleans have no `len` and raise `TypeError`. -/
def pySize : Value → Except CelErr Nat
  | Value.null => Except.ok 0
  | Value.str s => Except.ok s.length
  | Value.arr l => Except.ok l.length
  | Value.obj l => Except.ok l.length
  | Value.bool _ => Except.error CelErr.typeError
  | Value.num _ => Except.error CelErr.typeError

/-- Python `float(actual)` inside the numeric branch: numbers are
themselves, booleans are 0/1, strings go through the float literal parser,
arrays/objects/None fail (`TypeError`/`ValueError`, both caught). -/
def toFloat? : Value → Option Rat
  | Value.num q => Option.some q
  | Value.bool b => Option.some (if b then 1 else 0)
  | Value.str s => pyFloat? s.toList
  | _ => Option.none

/-- `BuiltinCELEvaluator._evaluate_pattern`. -/
def evalPattern (ctx : Value) : Matched → Except CelErr Bool
  | Matched.auth b =>
      Except.ok (pyEq (getValue ctx "identity.authenticated".toList) (Value.bool b))
  | Matched.tenant f =>
      Except.ok (pyEq (getValue ctx "identity.tenant".toList)
        (getValue ctx ("request.body.json.".toList ++ f)))
  | Matched.subject f =>
      Except.ok (pyEq (getValue ctx "identity.subject".toList)
        (getValue ctx ("request.body.json.".toList ++ f)))
  | Matched.eqCmp p r =>
      Except.ok (pyEq (getValue ctx p) (parseValue r))
  | Matched.neCmp p r =>
      Except.ok (!(pyEq (getValue ctx p) (parseValue r)))
  | Matched.member p inner =>
      Except.ok ((parseListVals inner).any (fun v => pyEq (getValue ctx p) v))
  | Matched.sizeCmp p op n =>
      match pySize (getValue ctx p) with
      | Except.ok s => Except.ok (cmpNat s op n)
      | Except.error e => Except.error e
  | Matched.numCmp p op q =>
      match getValue ctx p with
      | Value.null => Except.ok false
      | v =>
          match toFloat? v with
          | Option.none => Except.ok false
          | Option.some x => Except.ok (cmpRat x op q)

/-- Evaluate a stripped atomic expression: try the patterns in order; when
none matches, raise `CELEvaluationError` carrying the expression. -/
def evalAtomic (ctx : Value) (s : List Char) : Except CelErr Bool :=
  match tryPatterns s with
  | Option.some m => evalPattern ctx m
  | Option.none => Except.error (CelErr.celError s)

/-- Index of the first occurrence of a sequence, if any. -/
def findSeqIdx? (sep : List Char) : List Char → Option Nat
  | [] => if sep.isPrefixOf ([] : List Char) then Option.some 0 else Option.none
  | c :: rest =>
      if sep.isPrefixOf (c :: rest) then Option.some 0
      else (findSeqIdx? sep rest).map (fun i => i + 1)

/-- Python `str.split(sep)` for a non-empty separator (fueled scan). -/
def splitSeqAux : Nat → List Char → List Char → List (List Char)
  | 0, _, cs => [cs]
  | Nat.succ fuel, sep, cs =>
      match findSeqIdx? sep cs with
      | Option.none => [cs]
      | Option.some i => cs.take i :: splitSeqAux fuel sep (cs.drop (i + sep.length))

/-- Python `str.split(sep)`. -/
def splitSeq (sep cs : List Char) : List (List Char) :=
  splitSeqAux (cs.length + 1) sep cs

/-- `BuiltinCELEvaluator.evaluate`: strip; a `" && "` anywhere splits into
conjuncts folded left with short-circuit (`all(...)`), else a `" || "`
splits into disjuncts (`any(...)`), else a single pattern evaluation.
Exceptions propagate from the first part that raises; short-circuited
parts are never evaluated. -/
def evalExprCore : Nat → Value → List Char → Except CelErr Bool
  | 0, _, _ => Except.error CelErr.fuelExhausted
  | Nat.succ fuel, ctx, e =>
      let s := pyStripL e
      if containsSeq s " && ".toList then
        (splitSeq " && ".toList s).foldl (fun acc p =>
          match acc with
          | Except.ok true => evalExprCore fuel ctx (pyStripL p)
          | r => r) (Except.ok true)
      else if containsSeq s " || ".toList then
        (splitSeq " || ".toList s).foldl (fun acc p =>
          match acc with
          | Except.ok false => evalExprCore fuel ctx (pyStripL p)
          | r => r) (Except.ok false)
      else evalAtomic ctx s

/-- `BuiltinCELEvaluator.evaluate` on a string. -/
def evaluateExpr (ctx : Value) (expression : String) : Except CelErr Bool :=
  evalExprCore (expression.length + 1) ctx expression.toList

/-! ### Lemmas about the expression recognizers (for claims C5 and C6). -/

theorem space_not_wd (c : Char) (h : pySpace c = true) : wordDotChar c = false := by
  unfold pySpace at h
  simp only [Bool.or_eq_true, beq_iff_eq] at h
  rcases h with ((((h | h) | h) | h) | h) | h <;> subst h <;> decide

theorem wd_not_space (c : Char) (h : wordDotChar c = true) : pySpace c = false := by
  cases hs : pySpace c with
  | false => rfl
  | true => rw [space_not_wd c hs] at h; cases h

theorem wd_ne (c d : Char) (h : wordDotChar c = true)
    (hd : wordDotChar d = false) : c ≠ d := by
  intro he
  rw [he, hd] at h
  cases h

theorem dropWhile_eq_self_of_head (l : List Char)
    (h : ∀ c, l.head? = Option.some c → pySpace c = false) :
    l.dropWhile pySpace = l := by
  cases l with
  | nil => rfl
  | cons c rest =>
      have := h c rfl
      simp [List.dropWhile, this]

theorem pyStripL_eq_self (cs : List Char)
    (h1 : ∀ c, cs.head? = Option.some c → pySpace c = false)
    (h2 : ∀ c, cs.getLast? = Option.some c → pySpace c = false) :
    pyStripL cs = cs := by
  unfold pyStripL
  rw [dropWhile_eq_self_of_head cs h1]
  rw [dropWhile_eq_self_of_head cs.reverse (fun c hc => h2 c (by
    rwa [← List.head?_reverse]))]
  exact List.reverse_reverse cs

theorem dropSpaces_cons_of_not (c : Char) (r : List Char)
    (h : pySpace c = false) : dropSpaces (c :: r) = c :: r := by
  simp [dropSpaces, List.dropWhile, h]

theorem dropSpaces_nil : dropSpaces [] = [] := rfl

theorem expectPre_self_append (l r : List Char) :
    expectPre l (l ++ r) = Option.some r := by
  induction l with
  | nil => rfl
  | cons c cs ih => simp [expectPre, ih]

theorem takeWhile_append_boundary (p : List Char) (c : Char) (r : List Char)
    (hp : ∀ x ∈ p, wordDotChar x = true) (hc : wordDotChar c = false) :
    (p ++ c :: r).takeWhile wordDotChar = p ∧
    (p ++ c :: r).dropWhile wordDotChar = c :: r := by
  induction p with
  | nil => simp [List.takeWhile, List.dropWhile, hc]
  | cons d ds ih =>
      have hd : wordDotChar d = true := hp d (List.mem_cons_self d ds)
      have ihr := ih (fun x hx => hp x (List.mem_cons_of_mem d hx))
      simp [List.takeWhile, List.dropWhile, hd, ihr.1, ihr.2]

/-- The not-contained lemma: a needle holding a character absent from the
haystack never occurs as a substring. -/
theorem containsSeq_eq_false (hay needle : List Char) (c : Char)
    (hc : c ∈ needle) (hn : ∀ d ∈ hay, d ≠ c) :
    containsSeq hay needle = false := by
  cases h : containsSeq hay needle with
  | false => rfl
  | true =>
      exfalso
      unfold containsSeq at h
      rcases List.any_eq_true.mp h with ⟨t, ht, hpre⟩
      have hsuf : t <:+ hay := (List.mem_tails t hay).mp ht
      have hpre2 : needle <+: t := List.isPrefixOf_iff_prefix.mp hpre
      have hmem : c ∈ hay := hsuf.subset (hpre2.subset hc)
      exact hn c hmem rfl

/-- Splitting `expectPre` of an all-word literal against a word prefix
followed by a boundary: the boundary character is either whitespace or a
non-word non-`=` character, so the `lit\s*==\s*` head matches exactly when
the literal equals the word prefix. -/
theorem matchEqHead_split (lit : List Char) :
    ∀ (p m : List Char),
    (∀ c ∈ lit, wordDotChar c = true) →
    (∀ c ∈ p, wordDotChar c = true) →
    (∀ hd, m.head? = Option.some hd →
      (pySpace hd = true ∨ (wordDotChar hd = false ∧ hd ≠ '='))) →
    matchEqHead lit (p ++ m) =
      if lit = p then
        (expectPre ['=', '='] (dropSpaces m)).map (fun r2 => dropSpaces r2)
      else Option.none := by
  induction lit with
  | nil =>
      intro p m hlit hp hm
      cases p with
      | nil => simp [matchEqHead, expectPre]
      | cons d ds =>
          have hd : wordDotChar d = true := hp d (List.mem_cons_self d ds)
          have hds : dropSpaces (d :: (ds ++ m)) = d :: (ds ++ m) :=
            dropSpaces_cons_of_not d _ (wd_not_space d hd)
          have hne : ([] : List Char) ≠ d :: ds := by simp
          simp only [matchEqHead, expectPre, List.cons_append, List.nil_append,
            Option.bind_eq_bind, Option.some_bind, if_neg hne]
          rw [hds]
          have hne2 : '=' ≠ d := Ne.symm (wd_ne d '=' hd (by decide))
          have : expectPre ['=', '='] (d :: (ds ++ m)) = Option.none := by
            simp [expectPre, hne2]
          rw [this]
          rfl
  | cons l ls ih =>
      intro p m hlit hp hm
      cases p with
      | nil =>
          have hl : wordDotChar l = true := hlit l (List.mem_cons_self l ls)
          have hne : l :: ls ≠ ([] : List Char) := by simp
          simp only [List.nil_append, if_neg hne]
          cases m with
          | nil => simp [matchEqHead, expectPre]
          | cons hd m2 =>
              rcases hm hd rfl with hsp | ⟨hwd, _⟩
              · have : l ≠ hd := by
                  intro he
                  rw [he, space_not_wd hd hsp] at hl
                  cases hl
                simp [matchEqHead, expectPre, this]
              · have : l ≠ hd := wd_ne l hd hl hwd
                simp [matchEqHead, expectPre, this]
      | cons d ds =>
          by_cases hld : l = d
          · subst hld
            have step : matchEqHead (l :: ls) ((l :: ds) ++ m) =
                matchEqHead ls (ds ++ m) := by
              simp [matchEqHead, expectPre]
            rw [step, ih ds m (fun c hc => hlit c (List.mem_cons_of_mem l hc))
              (fun c hc => hp c (List.mem_cons_of_mem l hc)) hm]
            by_cases hls : ls = ds
            · simp [hls]
            · have hcne : l :: ls ≠ l :: ds := by
                intro he
                injection he with h1 h2
                exact hls h2
              simp [hls, hcne]
          · have : matchEqHead (l :: ls) ((d :: ds) ++ m) = Option.none := by
              simp [matchEqHead, expectPre, hld]
            rw [this]
            have : l :: ls ≠ d :: ds := by
              intro he
              exact hld (by injection he)
            simp [this]

theorem head_not_space_of_wd (q : List Char)
    (hqwd : ∀ c ∈ q, wordDotChar c = true) :
    ∀ c, q.head? = Option.some c → pySpace c = false := by
  intro c hc
  cases q with
  | nil => cases hc
  | cons a t =>
      have ha : a = c := by injection hc
      subst ha
      exact wd_not_space a (hqwd a (List.mem_cons_self a t))

theorem dropSpaces_eq_self_of_wd (q : List Char)
    (hqwd : ∀ c ∈ q, wordDotChar c = true) : dropSpaces q = q :=
  dropWhile_eq_self_of_head q (head_not_space_of_wd q hqwd)

/-- On the input `p == q` the `lit\s*==\s*` head of the three binding
patterns consumes the separator and leaves exactly `q` when `lit = p`. -/
theorem matchEqHead_on_eqInput (lit p q : List Char)
    (hlit : ∀ c ∈ lit, wordDotChar c = true)
    (hpwd : ∀ c ∈ p, wordDotChar c = true)
    (hqwd : ∀ c ∈ q, wordDotChar c = true) :
    matchEqHead lit (p ++ (' ' :: '=' :: '=' :: ' ' :: q)) =
      if lit = p then Option.some q else Option.none := by
  rw [matchEqHead_split lit p (' ' :: '=' :: '=' :: ' ' :: q) hlit hpwd
    (fun hd hhd => Or.inl (by
      have : ' ' = hd := by injection hhd
      subst this
      rfl))]
  by_cases h : lit = p
  · rw [if_pos h, if_pos h]
    have h1 : dropSpaces (' ' :: '=' :: '=' :: ' ' :: q) =
        '=' :: '=' :: ' ' :: q := rfl
    rw [h1]
    have h2 : expectPre ['=', '='] ('=' :: '=' :: ' ' :: q) =
        Option.some (' ' :: q) := rfl
    rw [h2]
    show Option.some (dropSpaces (' ' :: q)) = Option.some q
    have h3 : dropSpaces (' ' :: q) = dropSpaces q := rfl
    rw [h3, dropSpaces_eq_self_of_wd q hqwd]
  · rw [if_neg h, if_neg h]

/-- On the input `p != q` the `lit\s*==\s*` head never matches: after the
whitespace the next character is `!`, not `=`. -/
theorem matchEqHead_on_neInput (lit p q : List Char)
    (hlit : ∀ c ∈ lit, wordDotChar c = true)
    (hpwd : ∀ c ∈ p, wordDotChar c = true) :
    matchEqHead lit (p ++ (' ' :: '!' :: '=' :: ' ' :: q)) = Option.none := by
  rw [matchEqHead_split lit p (' ' :: '!' :: '=' :: ' ' :: q) hlit hpwd
    (fun hd hhd => Or.inl (by
      have : ' ' = hd := by injection hhd
      subst this
      rfl))]
  by_cases h : lit = p
  · rw [if_pos h]
    have h1 : dropSpaces (' ' :: '!' :: '=' :: ' ' :: q) =
        '!' :: '=' :: ' ' :: q := rfl
    rw [h1]
    rfl
  · rw [if_neg h]

theorem all_ne_newline_of_wd (q : List Char)
    (hqwd : ∀ c ∈ q, wordDotChar c = true) :
    q.all (fun c => c ≠ '\n') = true := by
  apply List.all_eq_true.mpr
  intro c hc
  exact decide_eq_true (wd_ne c '\n' (hqwd c hc) (by decide))

/-- The `equality` pattern on `p == q`: group 1 is `p` (maximal munch ends
at the space), group 2 is `q`. -/
theorem matchEquality_on_eqInput (p q : List Char) (hp : p ≠ [])
    (hpwd : ∀ c ∈ p, wordDotChar c = true) (hq : q ≠ [])
    (hqwd : ∀ c ∈ q, wordDotChar c = true) :
    matchEquality (p ++ (' ' :: '=' :: '=' :: ' ' :: q)) =
      Option.some (Matched.eqCmp p q) := by
  obtain ⟨ht, hd⟩ := takeWhile_append_boundary p ' ' ('=' :: '=' :: ' ' :: q)
    hpwd (by decide)
  unfold matchEquality
  rw [ht, hd, if_neg hp]
  have h1 : dropSpaces (' ' :: '=' :: '=' :: ' ' :: q) =
      '=' :: '=' :: ' ' :: q := rfl
  rw [h1]
  have h2 : expectPre ['=', '='] ('=' :: '=' :: ' ' :: q) =
      Option.some (' ' :: q) := rfl
  rw [h2]
  show (groupToEnd (' ' :: q)).map _ = _
  unfold groupToEnd
  have h3 : dropSpaces (' ' :: q) = dropSpaces q := rfl
  rw [h3, dropSpaces_eq_self_of_wd q hqwd]
  rw [if_pos ⟨hq, all_ne_newline_of_wd q hqwd⟩]
  rfl

/-- The `equality` pattern fails on `p != q` (single `=`). -/
theorem matchEquality_on_neInput (p q : List Char)
    (hpwd : ∀ c ∈ p, wordDotChar c = true) :
    matchEquality (p ++ (' ' :: '!' :: '=' :: ' ' :: q)) = Option.none := by
  obtain ⟨ht, hd⟩ := takeWhile_append_boundary p ' ' ('!' :: '=' :: ' ' :: q)
    hpwd (by decide)
  unfold matchEquality
  rw [ht, hd]
  by_cases hp : p = []
  · rw [if_pos hp]
  · rw [if_neg hp]
    have h1 : dropSpaces (' ' :: '!' :: '=' :: ' ' :: q) =
        '!' :: '=' :: ' ' :: q := rfl
    rw [h1]
    rfl

/-- The `inequality` pattern on `p != q`. -/
theorem matchInequality_on_neInput (p q : List Char) (hp : p ≠ [])
    (hpwd : ∀ c ∈ p, wordDotChar c = true) (hq : q ≠ [])
    (hqwd : ∀ c ∈ q, wordDotChar c = true) :
    matchInequality (p ++ (' ' :: '!' :: '=' :: ' ' :: q)) =
      Option.some (Matched.neCmp p q) := by
  obtain ⟨ht, hd⟩ := takeWhile_append_boundary p ' ' ('!' :: '=' :: ' ' :: q)
    hpwd (by decide)
  unfold matchInequality
  rw [ht, hd, if_neg hp]
  have h1 : dropSpaces (' ' :: '!' :: '=' :: ' ' :: q) =
      '!' :: '=' :: ' ' :: q := rfl
  rw [h1]
  have h2 : expectPre ['!', '='] ('!' :: '=' :: ' ' :: q) =
      Option.some (' ' :: q) := rfl
  rw [h2]
  show (groupToEnd (' ' :: q)).map _ = _
  unfold groupToEnd
  have h3 : dropSpaces (' ' :: q) = dropSpaces q := rfl
  rw [h3, dropSpaces_eq_self_of_wd q hqwd]
  rw [if_pos ⟨hq, all_ne_newline_of_wd q hqwd⟩]
  rfl

theorem tryPatterns_on_eqInput (p q : List Char) (hp : p ≠ [])
    (hpwd : ∀ c ∈ p, wordDotChar c = true) (hq : q ≠ [])
    (hqwd : ∀ c ∈ q, wordDotChar c = true)
    (hqt : q ≠ "true".toList) (hqf : q ≠ "false".toList)
    (hten : p = "identity.tenant".toList → matchBodyField q = Option.none)
    (hsub : p = "identity.subject".toList → matchBodyField q = Option.none) :
    tryPatterns (p ++ (' ' :: '=' :: '=' :: ' ' :: q)) =
      Option.some (Matched.eqCmp p q) := by
  have hauth : matchAuth (p ++ (' ' :: '=' :: '=' :: ' ' :: q)) =
      Option.none := by
    unfold matchAuth
    rw [matchEqHead_on_eqInput "identity.authenticated".toList p q (by decide)
      hpwd hqwd]
    by_cases h : "identity.authenticated".toList = p
    · rw [if_pos h]
      show (if q = "true".toList then _ else if q = "false".toList then _
        else Option.none) = Option.none
      rw [if_neg hqt, if_neg hqf]
    · rw [if_neg h]
      rfl
  have htenant : matchTenant (p ++ (' ' :: '=' :: '=' :: ' ' :: q)) =
      Option.none := by
    unfold matchTenant
    rw [matchEqHead_on_eqInput "identity.tenant".toList p q (by decide)
      hpwd hqwd]
    by_cases h : "identity.tenant".toList = p
    · rw [if_pos h]
      show (matchBodyField q).map Matched.tenant = Option.none
      rw [hten h.symm]
      rfl
    · rw [if_neg h]
      rfl
  have hsubject : matchSubject (p ++ (' ' :: '=' :: '=' :: ' ' :: q)) =
      Option.none := by
    unfold matchSubject
    rw [matchEqHead_on_eqInput "identity.subject".toList p q (by decide)
      hpwd hqwd]
    by_cases h : "identity.subject".toList = p
    · rw [if_pos h]
      show (matchBodyField q).map Matched.subject = Option.none
      rw [hsub h.symm]
      rfl
    · rw [if_neg h]
      rfl
  have heq := matchEquality_on_eqInput p q hp hpwd hq hqwd
  unfold tryPatterns
  rw [hauth, htenant, hsubject, heq]
  rfl

theorem tryPatterns_on_neInput (p q : List Char) (hp : p ≠ [])
    (hpwd : ∀ c ∈ p, wordDotChar c = true) (hq : q ≠ [])
    (hqwd : ∀ c ∈ q, wordDotChar c = true) :
    tryPatterns (p ++ (' ' :: '!' :: '=' :: ' ' :: q)) =
      Option.some (Matched.neCmp p q) := by
  have hauth : matchAuth (p ++ (' ' :: '!' :: '=' :: ' ' :: q)) =
      Option.none := by
    unfold matchAuth
    rw [matchEqHead_on_neInput "identity.authenticated".toList p q (by decide)
      hpwd]
    rfl
  have htenant : matchTenant (p ++ (' ' :: '!' :: '=' :: ' ' :: q)) =
      Option.none := by
    unfold matchTenant
    rw [matchEqHead_on_neInput "identity.tenant".toList p q (by decide) hpwd]
    rfl
  have hsubject : matchSubject (p ++ (' ' :: '!' :: '=' :: ' ' :: q)) =
      Option.none := by
    unfold matchSubject
    rw [matchEqHead_on_neInput "identity.subject".toList p q (by decide) hpwd]
    rfl
  have heqn := matchEquality_on_neInput p q hpwd
  have hne := matchInequality_on_neInput p q hp hpwd hq hqwd
  unfold tryPatterns
  rw [hauth, htenant, hsubject, heqn, hne]
  rfl

theorem getLast_not_space_of_wd (q : List Char)
    (hqwd : ∀ c ∈ q, wordDotChar c = true) :
    ∀ c, q.getLast? = Option.some c → pySpace c = false := by
  intro c hc
  have hmem : c ∈ q.getLast? := Option.mem_def.mpr hc
  rcases List.mem_getLast?_eq_getLast hmem with ⟨hne, heq⟩
  subst heq
  exact wd_not_space _ (hqwd _ (List.getLast_mem hne))

/-- Reduction of `evaluate` on a stripped input containing neither
compound separator: the result is the single-pattern evaluation. -/
theorem evaluateExpr_atomic (ctx : Value) (l : List Char)
    (hstrip : pyStripL l = l)
    (hand : containsSeq l " && ".toList = false)
    (hor : containsSeq l " || ".toList = false) :
    evaluateExpr ctx (String.mk l) = evalAtomic ctx l := by
  show evalExprCore ((String.mk l).length + 1) ctx (String.mk l).toList =
    evalAtomic ctx l
  have htl : (String.mk l).toList = l := rfl
  rw [htl]
  show evalExprCore (Nat.succ (String.mk l).length) ctx l = evalAtomic ctx l
  simp only [evalExprCore, hstrip, hand, hor, Bool.false_eq_true, if_false]

/-- Characters of the `p OP q` inputs: none is `&` or `|`. -/
theorem eqInput_chars (p q mid : List Char)
    (hpwd : ∀ c ∈ p, wordDotChar c = true)
    (hqwd : ∀ c ∈ q, wordDotChar c = true)
    (hmid : ∀ c ∈ mid, c = ' ' ∨ c = '=' ∨ c = '!') :
    ∀ d ∈ p ++ (mid ++ q), d ≠ '&' ∧ d ≠ '|' := by
  intro d hd
  have hnotwd : ∀ e : Char, wordDotChar e = true → e ≠ '&' ∧ e ≠ '|' := by
    intro e he
    exact ⟨wd_ne e '&' he (by decide), wd_ne e '|' he (by decide)⟩
  rcases List.mem_append.mp hd with hp2 | hmq
  · exact hnotwd d (hpwd d hp2)
  · rcases List.mem_append.mp hmq with hm2 | hq2
    · rcases hmid d hm2 with h | h | h <;> subst h <;> exact ⟨by decide, by decide⟩
    · exact hnotwd d (hqwd d hq2)

/-- C5, counterexample.  In the context `{a: 1, b: 1}` the two paths `a`
and `b` resolve to equal values, so the claim predicts `"a == b"` to
evaluate to true; the evaluator instead compares the value of `a` with the
literal string `"b"` and returns false. -/
theorem equality_path_rhs_counterexample :
    getValue (Value.obj [("a", Value.num 1), ("b", Value.num 1)]) "a".toList =
      getValue (Value.obj [("a", Value.num 1), ("b", Value.num 1)]) "b".toList ∧
    evaluateExpr (Value.obj [("a", Value.num 1), ("b", Value.num 1)]) "a == b" =
      Except.ok false := by
  exact ⟨rfl, rfl⟩

/-- C5, amended.  In the general equality and inequality forms the
right-hand side is *not* resolved against the context: `_parse_value`
returns a bare identifier path as a plain string, so for word-character
paths `p` and `q` — where `q` is parsed as a bare string and `p == q` is
not one of the special binding forms (`identity.tenant`/`identity.subject`
against `request.body.<field>`, whose right side *is* resolved) —
evaluating `p == q` returns the boolean comparison of the value at `p`
with the literal string `"q"`, and `p != q` its negation. -/
theorem equality_literal_rhs (ctx : Value) (p q : List Char) (hp : p ≠ [])
    (hpwd : ∀ c ∈ p, wordDotChar c = true) (hq : q ≠ [])
    (hqwd : ∀ c ∈ q, wordDotChar c = true)
    (hqparse : parseValue q = Value.str (String.mk q))
    (hten : p = "identity.tenant".toList → matchBodyField q = Option.none)
    (hsub : p = "identity.subject".toList → matchBodyField q = Option.none) :
    evaluateExpr ctx (String.mk (p ++ (' ' :: '=' :: '=' :: ' ' :: q))) =
      Except.ok (pyEq (getValue ctx p) (Value.str (String.mk q))) ∧
    evaluateExpr ctx (String.mk (p ++ (' ' :: '!' :: '=' :: ' ' :: q))) =
      Except.ok (!(pyEq (getValue ctx p) (Value.str (String.mk q)))) := by
  have hqt : q ≠ "true".toList := by
    intro he
    rw [he] at hqparse
    exact Value.noConfusion hqparse
  have hqf : q ≠ "false".toList := by
    intro he
    rw [he] at hqparse
    exact Value.noConfusion hqparse
  have hhead : ∀ (mid : List Char) c,
      (p ++ (mid ++ q)).head? = Option.some c → pySpace c = false := by
    intro mid c hc
    cases p with
    | nil => exact absurd rfl hp
    | cons a p2 =>
        have : a = c := by injection hc
        subst this
        exact wd_not_space a (hpwd a (List.mem_cons_self a p2))
  have hlast : ∀ (mid : List Char) c,
      (p ++ (mid ++ q)).getLast? = Option.some c → pySpace c = false := by
    intro mid c hc
    rw [List.getLast?_append_of_ne_nil _ (by
      intro hmq
      exact hq (by
        rcases List.append_eq_nil.mp hmq with ⟨h1, h2⟩
        exact h2)) ] at hc
    rw [List.getLast?_append_of_ne_nil _ hq] at hc
    exact getLast_not_space_of_wd q hqwd c hc
  constructor
  · have hassoc : p ++ (' ' :: '=' :: '=' :: ' ' :: q) =
        p ++ ([' ', '=', '=', ' '] ++ q) := rfl
    rw [hassoc]
    have hchars := eqInput_chars p q [' ', '=', '=', ' '] hpwd hqwd (by decide)
    rw [evaluateExpr_atomic ctx _
      (pyStripL_eq_self _ (hhead [' ', '=', '=', ' '])
        (hlast [' ', '=', '=', ' ']))
      (containsSeq_eq_false _ _ '&' (by decide)
        (fun d hd => (hchars d hd).1))
      (containsSeq_eq_false _ _ '|' (by decide)
        (fun d hd => (hchars d hd).2))]
    unfold evalAtomic
    have ha2 : p ++ ([' ', '=', '=', ' '] ++ q) =
        p ++ (' ' :: '=' :: '=' :: ' ' :: q) := rfl
    rw [ha2, tryPatterns_on_eqInput p q hp hpwd hq hqwd hqt hqf hten hsub]
    show Except.ok (pyEq (getValue ctx p) (parseValue q)) = _
    rw [hqparse]
  · have hassoc : p ++ (' ' :: '!' :: '=' :: ' ' :: q) =
        p ++ ([' ', '!', '=', ' '] ++ q) := rfl
    rw [hassoc]
    have hchars := eqInput_chars p q [' ', '!', '=', ' '] hpwd hqwd (by decide)
    rw [evaluateExpr_atomic ctx _
      (pyStripL_eq_self _ (hhead [' ', '!', '=', ' '])
        (hlast [' ', '!', '=', ' ']))
      (containsSeq_eq_false _ _ '&' (by decide)
        (fun d hd => (hchars d hd).1))
      (containsSeq_eq_false _ _ '|' (by decide)
        (fun d hd => (hchars d hd).2))]
    unfold evalAtomic
    have ha2 : p ++ ([' ', '!', '=', ' '] ++ q) =
        p ++ (' ' :: '!' :: '=' :: ' ' :: q) := rfl
    rw [ha2, tryPatterns_on_neInput p q hp hpwd hq hqwd]
    show Except.ok (!(pyEq (getValue ctx p) (parseValue q))) = _
    rw [hqparse]

/-- C5, witness: the amended theorem applied at `a == b` / `a != b` over
the context `{a: 1, b: 2}`. -/
theorem equality_literal_rhs_witness :
    evaluateExpr (Value.obj [("a", Value.num 1), ("b", Value.num 2)])
      (String.mk ("a".toList ++ (' ' :: '=' :: '=' :: ' ' :: "b".toList))) =
      Except.ok false ∧
    evaluateExpr (Value.obj [("a", Value.num 1), ("b", Value.num 2)])
      (String.mk ("a".toList ++ (' ' :: '!' :: '=' :: ' ' :: "b".toList))) =
      Except.ok true := by
  have h := equality_literal_rhs
    (Value.obj [("a", Value.num 1), ("b", Value.num 2)])
    "a".toList "b".toList (by decide) (by decide) (by decide) (by decide)
    rfl (fun hc => absurd hc (by decide)) (fun hc => absurd hc (by decide))
  exact ⟨h.1, h.2⟩

/-- The escaped metacharacters, in the source's order (backslash first). -/
def metas : List Char := ['\\', '.', '+', '*', '?', '^', '$', '[', ']', '|', '(', ')']

/-- One escape step of the replace chain. -/
def escapeChar (c : Char) : List Char :=
  if metas.contains c then ['\\', c] else [c]

/-- The full escape pass. -/
def escapeMeta (cs : List Char) : List Char :=
  cs.flatMap escapeChar

/-- A token of the compiled pattern. -/
inductive Tok where
  | lit (c : Char)
  | group (name : List Char)
deriving DecidableEq, Repr

/-- Scan up to the first `}`, returning the characters before it and the
remainder after it (the `[^}]+` innards may be empty here; the caller
rejects the empty name, as the regex requires at least one character). -/
def findCloseBrace : List Char → Option (List Char × List Char)
  | [] => Option.none
  | c :: rest =>
      if c = '}' then Option.some ([], rest)
      else (findCloseBrace rest).map (fun pr => (c :: pr.1, pr.2))

/-- The parameter-substitution scan over the escaped template (fueled; the
wrapper passes `length + 1`, and every step consumes at least one
character). -/
def subParamsF : Nat → List Char → List Tok
  | 0, _ => []
  | Nat.succ fuel, cs =>
      match cs with
      | [] => []
      | c :: rest =>
          if c = '\\' then
            match rest with
            | c2 :: rest2 => Tok.lit c2 :: subParamsF fuel rest2
            | [] => [Tok.lit '\\']
          else if c = '{' then
            match findCloseBrace rest with
            | Option.some pr =>
                if pr.1 ≠ [] then Tok.group pr.1 :: subParamsF fuel pr.2
                else Tok.lit '{' :: subParamsF fuel rest
            | Option.none => Tok.lit '{' :: subParamsF fuel rest
          else Tok.lit c :: subParamsF fuel rest

/-- `_path_to_regex`, compiled-pattern part. -/
def pathToToks (path : List Char) : List Tok :=
  subParamsF ((escapeMeta path).length + 1) (escapeMeta path)

/-- `_path_to_regex`, parameter-name part: the `params` list receives the
group names in substitution (left-to-right) order, which is exactly the
order of the group tokens. -/
def pathParams (path : List Char) : List String :=
  (pathToToks path).filterMap (fun t =>
    match t with
    | Tok.group n => Option.some (String.mk n)
    | Tok.lit _ => Option.none)

/-- The `$` anchor of the compiled pattern under `re.match`: the remainder
may be empty or one final newline. -/
def matchEnd (cs : List Char) : Bool :=
  cs.isEmpty || cs == ['\n']

/-- Greedy backtracking for one `[^/]+` group: `revPre` holds the
still-kept munched characters in reverse; on failure of the continuation
the last munched character is given back to the suffix. -/
def groupTry (f : List Char → Option (List (List Char × List Char)))
    (n : List Char) : List Char → List Char →
    Option (List (List Char × List Char))
  | [], _ => Option.none
  | c :: revRest, suf =>
      match f suf with
      | Option.some caps => Option.some ((n, (c :: revRest).reverse) :: caps)
      | Option.none => groupTry f n revRest (c :: suf)

/-- Matching of the compiled pattern against a subject, with the leftmost
greedy semantics of Python `re`; returns the captures in group order. -/
def reMatch : List Tok → List Char → Option (List (List Char × List Char))
  | [], cs => if matchEnd cs then Option.some [] else Option.none
  | Tok.lit _ :: _, [] => Option.none
  | Tok.lit c :: ts, d :: cs => if c = d then reMatch ts cs else Option.none
  | Tok.group n :: ts, cs =>
      groupTry (fun l => reMatch ts l) n
        ((cs.takeWhile (fun c => c != '/')).reverse)
        (cs.dropWhile (fun c => c != '/'))

/-- Specification-side view of a template, from the spec's words: a path
template is a sequence of literal characters and `{name}` parameters. -/
inductive TItem where
  | lit (c : Char)
  | param (name : List Char)
deriving DecidableEq, Repr

/-- Rendering an item back to template text. -/
def renderItem : TItem → List Char
  | TItem.lit c => [c]
  | TItem.param n => '{' :: (n ++ ['}'])

/-- Rendering a template. -/
def renderT (items : List TItem) : List Char :=
  items.flatMap renderItem

/-- The token a well-formed item compiles to. -/
def itemTok : TItem → Tok
  | TItem.lit c => Tok.lit c
  | TItem.param n => Tok.group n

/-- Well-formedness of a template item: literal characters are no braces,
parameter names are valid Python group identifiers, i.e. a word made of
`\w` characters starting with a letter or underscore.  (`re.compile`
rejects any other group name — e.g. a digit-first `(?P<1>...)` — with
`re.error: bad character in group name`, and likewise rejects a template
reusing a parameter name; both are therefore outside the claim theorem's
domain, which also assumes distinct names.) -/
def wfItem : TItem → Bool
  | TItem.lit c => !(c == '{') && !(c == '}')
  | TItem.param [] => false
  | TItem.param (c :: rest) =>
      (c.isAlpha || c == '_') && (c :: rest).all wordChar

/-- Well-formedness of a template. -/
def wfItems (items : List TItem) : Bool :=
  items.all wfItem

/-- The parameter names of a template in declaration order (spec side). -/
def paramNames (items : List TItem) : List String :=
  items.filterMap (fun i =>
    match i with
    | TItem.param n => Option.some (String.mk n)
    | TItem.lit _ => Option.none)

/-- The spec-side shape relation between a template and a request path:
literals match themselves, each parameter matches one non-empty
slash-free segment — and, reflecting the `$` anchor of Python `re`, one
final newline may follow the matched path. -/
inductive ShapeMatch : List TItem → List Char → Prop
  | nil : ShapeMatch [] []
  | nlEnd : ShapeMatch [] ['\n']
  | lit {c : Char} {ts : List TItem} {cs : List Char} :
      ShapeMatch ts cs → ShapeMatch (TItem.lit c :: ts) (c :: cs)
  | group {n seg : List Char} {ts : List TItem} {cs : List Char} :
      seg ≠ [] → (∀ c ∈ seg, c ≠ '/') → ShapeMatch ts cs →
      ShapeMatch (TItem.param n :: ts) (seg ++ cs)

theorem wordChar_not_meta (c : Char) (h : wordChar c = true) :
    metas.contains c = false := by
  cases hm : metas.contains c with
  | false => rfl
  | true =>
      exfalso
      have hmem : c ∈ metas := by simpa using hm
      unfold metas at hmem
      simp only [List.mem_cons, List.not_mem_nil, or_false] at hmem
      rcases hmem with h2 | h2 | h2 | h2 | h2 | h2 | h2 | h2 | h2 | h2 | h2 | h2 <;>
        subst h2 <;> exact absurd h (by decide)

theorem wd_brace_ne (c : Char) (h : wordChar c = true) : c ≠ '}' := by
  intro he
  subst he
  exact absurd h (by decide)

theorem escapeMeta_word (n : List Char) (h : ∀ c ∈ n, wordChar c = true) :
    escapeMeta n = n := by
  induction n with
  | nil => rfl
  | cons c rest ih =>
      show escapeChar c ++ escapeMeta rest = c :: rest
      rw [escapeChar, wordChar_not_meta c (h c (List.mem_cons_self c rest))]
      simp only [Bool.false_eq_true, if_false, List.cons_append, List.nil_append]
      rw [ih (fun d hd => h d (List.mem_cons_of_mem c hd))]

theorem findCloseBrace_append (n E : List Char) (h : ∀ c ∈ n, c ≠ '}') :
    findCloseBrace (n ++ '}' :: E) = Option.some (n, E) := by
  induction n with
  | nil => simp [findCloseBrace]
  | cons c rest ih =>
      have hc : c ≠ '}' := h c (List.mem_cons_self c rest)
      simp only [List.cons_append, findCloseBrace, if_neg hc]
      show Option.map (fun pr => (c :: pr.1, pr.2)) (findCloseBrace (rest ++ '}' :: E)) =
        Option.some (c :: rest, E)
      rw [ih (fun d hd => h d (List.mem_cons_of_mem c hd))]
      rfl

theorem length_le_escapeMeta (l : List Char) :
    l.length ≤ (escapeMeta l).length := by
  induction l with
  | nil => exact Nat.le_refl 0
  | cons c rest ih =>
      show (c :: rest).length ≤ (escapeChar c ++ escapeMeta rest).length
      rw [List.length_append, List.length_cons]
      have h1 : 1 ≤ (escapeChar c).length := by
        unfold escapeChar
        split <;> simp
      omega

theorem length_le_renderT (items : List TItem) :
    items.length ≤ (renderT items).length := by
  induction items with
  | nil => exact Nat.le_refl 0
  | cons i rest ih =>
      show (i :: rest).length ≤ (renderItem i ++ renderT rest).length
      rw [List.length_append, List.length_cons]
      have h1 : 1 ≤ (renderItem i).length := by
        cases i <;> simp [renderItem]
      omega

theorem subParamsF_renderT (items : List TItem) :
    ∀ fuel, wfItems items = true → items.length < fuel →
    subParamsF fuel (escapeMeta (renderT items)) = items.map itemTok := by
  induction items with
  | nil =>
      intro fuel _ hfuel
      cases fuel with
      | zero => omega
      | succ f =>
          show subParamsF (Nat.succ f) (escapeMeta []) = []
          rfl
  | cons i rest ih =>
      intro fuel hwf hfuel
      have hwfi : wfItem i = true := by
        have := List.all_eq_true.mp hwf i (List.mem_cons_self i rest)
        exact this
      have hwfr : wfItems rest = true := by
        apply List.all_eq_true.mpr
        intro x hx
        exact List.all_eq_true.mp hwf x (List.mem_cons_of_mem i hx)
      cases fuel with
      | zero => omega
      | succ f =>
          have hfr : rest.length < f := by
            simp only [List.length_cons] at hfuel
            omega
          have hE : escapeMeta (renderT (i :: rest)) =
              escapeMeta (renderItem i) ++ escapeMeta (renderT rest) := by
            show escapeMeta (renderItem i ++ renderT rest) = _
            unfold escapeMeta
            rw [List.flatMap_append]
          rw [hE]
          cases i with
          | lit c =>
              have hc1 : ¬(c = '{') := by
                intro h
                subst h
                simp [wfItem] at hwfi
              have h1 : escapeMeta (renderItem (TItem.lit c)) = escapeChar c := by
                simp [escapeMeta, renderItem]
              rw [h1]
              by_cases hm : metas.contains c = true
              · rw [escapeChar, if_pos hm]
                simp only [List.cons_append, List.nil_append, subParamsF]
                rw [ih f hwfr hfr]
                rfl
              · rw [escapeChar, if_neg hm]
                have hcb : ¬(c = '\\') := by
                  intro h
                  subst h
                  exact hm rfl
                simp only [List.cons_append, List.nil_append, subParamsF]
                rw [if_neg hcb, if_neg hc1]
                rw [ih f hwfr hfr]
                rfl
          | param n =>
              have hnnil : n ≠ [] := by
                intro h
                rw [h] at hwfi
                simp [wfItem] at hwfi
              have hword : ∀ c ∈ n, wordChar c = true := by
                cases n with
                | nil => exact absurd rfl hnnil
                | cons c0 rest0 =>
                    simp only [wfItem, Bool.and_eq_true] at hwfi
                    exact List.all_eq_true.mp hwfi.2
              have hrender : escapeMeta (renderItem (TItem.param n)) =
                  '{' :: (n ++ ['}']) := by
                show escapeMeta ('{' :: (n ++ ['}'])) = _
                show escapeChar '{' ++ escapeMeta (n ++ ['}']) = _
                unfold escapeMeta
                rw [List.flatMap_append]
                show escapeChar '{' ++ (escapeMeta n ++ escapeMeta ['}']) = _
                rw [escapeMeta_word n hword]
                rfl
              rw [hrender]
              simp only [List.cons_append, subParamsF]
              have hassoc : (n ++ ['}']) ++ escapeMeta (renderT rest) =
                  n ++ '}' :: escapeMeta (renderT rest) := by
                simp
              rw [hassoc, findCloseBrace_append n _ (fun c hc =>
                wd_brace_ne c (hword c hc))]
              show (if n ≠ [] then _ else _) = _
              rw [if_pos hnnil]
              show Tok.group n :: subParamsF f (escapeMeta (renderT rest)) = _
              rw [ih f hwfr hfr]
              rfl

theorem takeWhile_append_all (p : Char → Bool) (l1 l2 : List Char)
    (h : ∀ c ∈ l1, p c = true) :
    (l1 ++ l2).takeWhile p = l1 ++ l2.takeWhile p ∧
    (l1 ++ l2).dropWhile p = l2.dropWhile p := by
  induction l1 with
  | nil => exact ⟨rfl, rfl⟩
  | cons c rest ih =>
      have hc : p c = true := h c (List.mem_cons_self c rest)
      have ihr := ih (fun d hd => h d (List.mem_cons_of_mem c hd))
      constructor
      · show List.takeWhile p (c :: (rest ++ l2)) = _
        simp [List.takeWhile, hc, ihr.1]
      · show List.dropWhile p (c :: (rest ++ l2)) = _
        simp [List.dropWhile, hc, ihr.2]

theorem groupTry_isSome (f : List Char → Option (List (List Char × List Char)))
    (n : List Char) : ∀ (revPre suf : List Char),
    (groupTry f n revPre suf).isSome = true ↔
      ∃ i, revPre.drop i ≠ [] ∧
        (f ((revPre.take i).reverse ++ suf)).isSome = true := by
  intro revPre
  induction revPre with
  | nil =>
      intro suf
      constructor
      · intro h
        cases h
      · rintro ⟨i, hi, _⟩
        exact absurd List.drop_nil hi
  | cons c r ih =>
      intro suf
      show (match f suf with
        | Option.some caps => Option.some ((n, (c :: r).reverse) :: caps)
        | Option.none => groupTry f n r (c :: suf)).isSome = true ↔ _
      cases hf : f suf with
      | some caps =>
          simp only [Option.isSome_some, true_iff]
          exact ⟨0, by simp, by simp [hf]⟩
      | none =>
          rw [show (groupTry f n r (c :: suf)).isSome = true ↔ _ from ih (c :: suf)]
          constructor
          · rintro ⟨i, hi, hsome⟩
            refine ⟨i + 1, by simpa using hi, ?_⟩
            have harr : ((c :: r).take (i + 1)).reverse ++ suf =
                (r.take i).reverse ++ (c :: suf) := by
              show (c :: r.take i).reverse ++ suf = _
              rw [List.reverse_cons, List.append_assoc]
              rfl
            rw [harr]
            exact hsome
          · rintro ⟨i, hi, hsome⟩
            cases i with
            | zero =>
                exfalso
                simp only [List.take_zero, List.reverse_nil, List.nil_append] at hsome
                rw [hf] at hsome
                cases hsome
            | succ i =>
                refine ⟨i, by simpa using hi, ?_⟩
                have harr : ((c :: r).take (i + 1)).reverse ++ suf =
                    (r.take i).reverse ++ (c :: suf) := by
                  show (c :: r.take i).reverse ++ suf = _
                  rw [List.reverse_cons, List.append_assoc]
                  rfl
                rw [harr] at hsome
                exact hsome

theorem shape_nil_iff (cs : List Char) :
    ShapeMatch [] cs ↔ cs = [] ∨ cs = ['\n'] := by
  constructor
  · intro h
    cases h with
    | nil => exact Or.inl rfl
    | nlEnd => exact Or.inr rfl
  · rintro (h | h) <;> subst h
    · exact ShapeMatch.nil
    · exact ShapeMatch.nlEnd

theorem shape_lit_iff (c : Char) (ts : List TItem) (cs : List Char) :
    ShapeMatch (TItem.lit c :: ts) cs ↔
      ∃ cs2, cs = c :: cs2 ∧ ShapeMatch ts cs2 := by
  constructor
  · intro h
    cases h with
    | lit h2 => exact ⟨_, rfl, h2⟩
  · rintro ⟨cs2, rfl, h2⟩
    exact ShapeMatch.lit h2

theorem shape_group_iff (n : List Char) (ts : List TItem) (cs : List Char) :
    ShapeMatch (TItem.param n :: ts) cs ↔
      ∃ seg rest2, cs = seg ++ rest2 ∧ seg ≠ [] ∧ (∀ c ∈ seg, c ≠ '/') ∧
        ShapeMatch ts rest2 := by
  constructor
  · intro h
    cases h with
    | group hne hns h2 => exact ⟨_, _, rfl, hne, hns, h2⟩
  · rintro ⟨seg, rest2, rfl, hne, hns, h2⟩
    exact ShapeMatch.group hne hns h2

theorem matchEnd_iff (cs : List Char) :
    matchEnd cs = true ↔ cs = [] ∨ cs = ['\n'] := by
  unfold matchEnd
  simp [List.isEmpty_iff]

theorem filterMap_itemTok (items : List TItem) :
    (items.map itemTok).filterMap (fun t =>
      match t with
      | Tok.group n => Option.some (String.mk n)
      | Tok.lit _ => Option.none) = paramNames items := by
  induction items with
  | nil => rfl
  | cons i rest ih =>
      cases i with
      | lit c => exact ih
      | param n => exact congrArg (List.cons (String.mk n)) ih

/-- The compiled matcher accepts exactly the paths of the template's
shape (the trailing-newline allowance of `$` included). -/
theorem reMatch_isSome_iff_shape (items : List TItem) : ∀ cs : List Char,
    (reMatch (items.map itemTok) cs).isSome = true ↔ ShapeMatch items cs := by
  induction items with
  | nil =>
      intro cs
      rw [shape_nil_iff]
      show (if matchEnd cs then Option.some [] else Option.none).isSome = true ↔ _
      by_cases h : matchEnd cs = true
      · simp only [h, if_true, Option.isSome_some, true_iff]
        exact matchEnd_iff cs |>.mp h
      · have h2 : matchEnd cs = false := by
          cases hm : matchEnd cs with
          | false => rfl
          | true => exact absurd hm h
        simp only [h2, Bool.false_eq_true, if_false, Option.isSome_none,
          false_iff]
        intro h3
        exact h ((matchEnd_iff cs).mpr h3)
  | cons i rest ih =>
      intro cs
      cases i with
      | lit c =>
          rw [shape_lit_iff]
          cases cs with
          | nil =>
              constructor
              · intro h
                cases h
              · rintro ⟨cs2, h, _⟩
                cases h
          | cons d cs2 =>
              show (if c = d then reMatch (rest.map itemTok) cs2
                else Option.none).isSome = true ↔ _
              by_cases hcd : c = d
              · subst hcd
                rw [if_pos rfl]
                rw [ih cs2]
                constructor
                · intro h
                  exact ⟨cs2, rfl, h⟩
                · rintro ⟨cs3, heq, h⟩
                  injection heq with h1 h2
                  subst h2
                  exact h
              · rw [if_neg hcd]
                simp only [Option.isSome_none, Bool.false_eq_true, false_iff]
                rintro ⟨cs3, heq, _⟩
                injection heq with h1 h2
                exact hcd h1.symm
      | param n =>
          rw [shape_group_iff]
          show (groupTry (fun l => reMatch (rest.map itemTok) l) n
            ((cs.takeWhile (fun c => c != '/')).reverse)
            (cs.dropWhile (fun c => c != '/'))).isSome = true ↔ _
          rw [groupTry_isSome]
          constructor
          · rintro ⟨i, hdrop, hsome⟩
            set pre := cs.takeWhile (fun c => c != '/') with hpre
            set suf := cs.dropWhile (fun c => c != '/') with hsuf
            refine ⟨(pre.reverse.drop i).reverse, (pre.reverse.take i).reverse ++ suf,
              ?_, ?_, ?_, ?_⟩
            · have : pre = (pre.reverse.drop i).reverse ++ (pre.reverse.take i).reverse := by
                rw [← List.reverse_append, List.take_append_drop, List.reverse_reverse]
              calc cs = pre ++ suf := (List.takeWhile_append_dropWhile _ _).symm
                _ = ((pre.reverse.drop i).reverse ++ (pre.reverse.take i).reverse) ++ suf := by
                    rw [← this]
                _ = _ := by rw [List.append_assoc]
            · intro habs
              apply hdrop
              have := congrArg List.reverse habs
              simpa using this
            · intro c hc
              have hc2 : c ∈ pre := by
                have hsub : (pre.reverse.drop i).reverse ⊆ pre := by
                  intro x hx
                  have : x ∈ pre.reverse.drop i := by simpa using hx
                  have : x ∈ pre.reverse := List.mem_of_mem_drop this
                  simpa using this
                exact hsub hc
              have := List.mem_takeWhile_imp hc2
              simpa using this
            · rw [← ih]
              exact hsome
          · rintro ⟨seg, rest2, rfl, hne, hns, hshape⟩
            have hall : ∀ c ∈ seg, (fun c => c != '/') c = true := by
              intro c hc
              simpa using hns c hc
            obtain ⟨htake, hdrop⟩ := takeWhile_append_all _ seg rest2 hall
            rw [htake, hdrop]
            set tw := rest2.takeWhile (fun c => c != '/') with htw
            set dw := rest2.dropWhile (fun c => c != '/') with hdw
            refine ⟨tw.reverse.length, ?_, ?_⟩
            · rw [List.reverse_append, List.drop_left]
              intro habs
              exact hne (by simpa using congrArg List.reverse habs)
            · rw [List.reverse_append, List.take_left, List.reverse_reverse]
              have : tw ++ dw = rest2 := List.takeWhile_append_dropWhile _ _
              rw [this, ih]
              exact hshape

/-- C7, counterexample.  The compiled matcher for the parameterless
template `/users` also matches the request path with one trailing newline
(`re.match` lets `$` match just before a final newline), so a path can
match the route without having the template's shape. -/
theorem pathMatcher_counterexample :
    (reMatch (pathToToks "/users".toList) "/users\n".toList).isSome = true ∧
    "/users\n" ≠ "/users" := by
  exact ⟨rfl, by decide⟩

/-- C7, amended.  For a well-formed OpenAPI path template (literal
characters that are not braces, `{name}` parameters with non-empty word
names, names pairwise distinct), the compiled matcher is anchored at the
start, literal characters (metacharacters escaped) match only themselves,
each `{name}` becomes a named capture matching one non-empty slash-free
segment, and the returned parameter-name list preserves declaration order;
a request path matches the route exactly when it has the template's shape,
where — because Python's `$` also matches just before one final newline —
the matched path may additionally carry one trailing `\n`. -/
theorem pathMatcher_spec (items : List TItem) (hwf : wfItems items = true)
    (_hnodup : (paramNames items).Nodup) (cs : List Char) :
    pathParams (renderT items) = paramNames items ∧
    ((reMatch (pathToToks (renderT items)) cs).isSome = true ↔
      ShapeMatch items cs) := by
  have hcomp : pathToToks (renderT items) = items.map itemTok := by
    unfold pathToToks
    apply subParamsF_renderT items _ hwf
    have h1 := length_le_renderT items
    have h2 := length_le_escapeMeta (renderT items)
    omega
  constructor
  · unfold pathParams
    rw [hcomp]
    exact filterMap_itemTok items
  · rw [hcomp]
    exact reMatch_isSome_iff_shape items cs

/-- C7, witness: the amended theorem applied to the template `/u{id}` and
the path `/u42`. -/
theorem pathMatcher_spec_witness :
    pathParams (renderT [TItem.lit '/', TItem.lit 'u',
      TItem.param "id".toList]) = ["id"] ∧
    (reMatch (pathToToks (renderT [TItem.lit '/', TItem.lit 'u',
      TItem.param "id".toList])) "/u42".toList).isSome = true := by
  have h := pathMatcher_spec [TItem.lit '/', TItem.lit 'u',
    TItem.param "id".toList] (by decide) (by decide) "/u42".toList
  refine ⟨h.1, h.2.mpr ?_⟩
  exact ShapeMatch.lit (ShapeMatch.lit
    (@ShapeMatch.group "id".toList ['4', '2'] [] [] (by decide) (by decide)
      ShapeMatch.nil))

end ContractShield
